import Mathlib

/-!
# Verification of the redbin codec (Rust serde serializer/deserializer for the REDBIN wire format)

This file shallowly embeds the encoder (`src/ser.rs`) and decoder (`src/de.rs`)
of the repository into Lean.  Bytes are modelled as `List Nat` (each element
`< 256`), machine integers as `Nat`/`Int` with explicit wrap-arounds, `f64`
values by their 64-bit IEEE-754 bit patterns (the codec only ever moves the
bytes of a float, never computes with its numeric value), and the fallible
decoding discipline by an explicit result type that distinguishes returned
errors (`Result::Err` in the Rust) from process aborts (`panic!` /
out-of-bounds slicing / `unimplemented!`).

The `iconv`-based transcoding collaborators (UCS-4LE / UCS-2LE / UTF-8
conversions, `src/lib.rs` `iconv_tools`) are modelled from the spec (§6:
`decode_ucs2`, `decode_ucs4`, `encode_ucs4`, each fallible) as the standard
total functions on Unicode scalar values.

The serde data-model collaborator (derived `Serialize`/`Deserialize`
implementations) is modelled from the spec (§4.4-§4.5) by a closed `Value`
type of supported host values and a `Ty` type of target shapes driving the
type-directed decoder.
-/

namespace Redbin

/-- Wire bytes.  Every element is a `u8`, kept as `Nat < 256`. -/
abbrev Bytes := List Nat

/-- Little-endian value of a byte list (`u32::from_le_bytes` composed with the
byte splits used in `de.rs`). -/
def leNat : Bytes → Nat
  | [] => 0
  | b :: bs => b + 256 * leNat bs

/-- The 4 little-endian bytes of `n % 2^32` (`i32::to_le_bytes`). -/
def le4 (n : Nat) : Bytes :=
  [n % 256, n / 256 % 256, n / 256 ^ 2 % 256, n / 256 ^ 3 % 256]

/-- The 8 little-endian bytes of `n % 2^64` (`f64::to_le_bytes` on the bit
pattern). -/
def le8 (n : Nat) : Bytes :=
  le4 (n % 2 ^ 32) ++ le4 (n / 2 ^ 32)

/-- `i32::from_le_bytes`: reinterpret a `Nat < 2^32` as a signed 32-bit
integer. -/
def toI32 (n : Nat) : Int :=
  if n < 2 ^ 31 then (n : Int) else (n : Int) - 2 ^ 32

/-- `i32 as usize` (sign-extend to 64 bits, then reinterpret). -/
def usizeOfI32 (n : Int) : Nat :=
  (n % (2 ^ 64 : Int)).toNat

@[simp] theorem le4_length (n : Nat) : (le4 n).length = 4 := rfl

@[simp] theorem le8_length (n : Nat) : (le8 n).length = 8 := rfl

theorem leNat_le4 (n : Nat) : leNat (le4 n) = n % 2 ^ 32 := by
  simp only [le4, leNat]
  omega

theorem leNat_le8 (n : Nat) : leNat (le8 n) = n % 2 ^ 64 := by
  have h4 : ∀ m, leNat (le4 m) = m % 2 ^ 32 := leNat_le4
  simp only [le8, le4, leNat]
  omega

theorem toI32_of_lt {n : Nat} (h : n < 2 ^ 31) : toI32 n = (n : Int) := by
  unfold toI32
  rw [if_pos h]

/-- The error type of the codec.  `src/error.rs` is not part of the sources;
its constructors are modelled from their uses in `src/de.rs` / `src/ser.rs`
and from the spec's error taxonomy (§7).  All `Error::Message(String)` values
(range violations, transcoding failures, serde-generated custom errors) are
collapsed into the single constructor `Message`; the structural errors keep
their source names. -/
inductive Err where
  | Message
  | ExpectedInteger
  | ExpectedBlock
  | ExpectedLogic
  | ExpectedFloat
  | ExpectedString
  | ExpectedChar
  | ExpectedBinary
  | ExpectedNone
  | ExpectedEvenLength
  | NoMapValue
  | ExpectedEnum
  | TrailingBytes
  deriving DecidableEq, Repr

/-- Outcome of a decoding step: a returned value, a returned `Err`, or a
process abort.  `abort` models Rust panics — out-of-bounds slicing
(`&input[..4]` on a short buffer), `unimplemented!` (references, binary unit
widths other than 1), and `unwrap()` on a failed conversion. -/
inductive DRes (α : Type) where
  | ok (a : α)
  | err (e : Err)
  | abort
  deriving DecidableEq, Repr

namespace DRes

def bind : DRes α → (α → DRes β) → DRes β
  | ok a, f => f a
  | err e, _ => err e
  | abort, _ => abort

instance : Monad DRes where
  pure := ok
  bind := DRes.bind

@[simp] theorem bind_ok (a : α) (f : α → DRes β) : bind (ok a) f = f a := rfl

@[simp] theorem bind_err (e : Err) (f : α → DRes β) : bind (err e) f = err e := rfl

@[simp] theorem bind_abort (f : α → DRes β) : bind abort f = abort := rfl

@[simp] theorem monad_bind_eq_bind (x : DRes α) (f : α → DRes β) :
    x >>= f = bind x f := rfl

@[simp] theorem pure_eq_ok (a : α) : (pure a : DRes α) = ok a := rfl

end DRes

/-! ## Transcoding collaborators

Modelled from the spec: the `iconv_tools` module of `src/lib.rs` wraps the
external `iconv` library, exposing `encode_ucs4(text) -> bytes`,
`decode_ucs4(bytes) -> text` and `decode_ucs2(bytes) -> text` (§6), each
fallible with a transcoding error.  Text is represented by its list of
Unicode code points. -/

/-- A Unicode scalar value: any code point except the surrogates, at most
`0x10FFFF`.  Rust `char` carries exactly these. -/
def isScalar (p : Nat) : Bool :=
  (p < 0xD800 || (0xE000 ≤ p && p ≤ 0x10FFFF))

/-- UTF-8 encoding of one code point (what `str` stores per `char`). -/
def utf8Char (p : Nat) : Bytes :=
  if p < 0x80 then [p]
  else if p < 0x800 then [0xC0 + p / 64, 0x80 + p % 64]
  else if p < 0x10000 then [0xE0 + p / 4096, 0x80 + p / 64 % 64, 0x80 + p % 64]
  else [0xF0 + p / 262144, 0x80 + p / 4096 % 64, 0x80 + p / 64 % 64, 0x80 + p % 64]

/-- The UTF-8 bytes of a string given as code points (`str::as_bytes` /
`Vec::from(v)` for `v: &str`). -/
def utf8Bytes (pts : List Nat) : Bytes :=
  (pts.map utf8Char).flatten

/-- A UTF-8 continuation byte. -/
def utf8Cont (c : Nat) : Bool :=
  0x80 ≤ c && c < 0xC0

/-- Restricted range of the first continuation byte of a 3-byte sequence
(rules out overlong forms after `0xE0` and surrogates after `0xED`). -/
def utf8Low3 (b c : Nat) : Bool :=
  if b = 0xE0 then 0xA0 ≤ c && c < 0xC0
  else if b = 0xED then 0x80 ≤ c && c < 0xA0
  else utf8Cont c

/-- Restricted range of the first continuation byte of a 4-byte sequence
(rules out overlong forms after `0xF0` and values above `0x10FFFF` after
`0xF4`). -/
def utf8Low4 (b c : Nat) : Bool :=
  if b = 0xF0 then 0x90 ≤ c && c < 0xC0
  else if b = 0xF4 then 0x80 ≤ c && c < 0x90
  else utf8Cont c

/-- Decode one UTF-8 sequence beginning with byte `b` and continued by
`rest`: the code point and the number of continuation bytes consumed. -/
def utf8DecodeOne (b : Nat) (rest : Bytes) : Option (Nat × Nat) :=
  if b < 0x80 then some (b, 0)
  else if b < 0xC2 then none
  else if b < 0xE0 then
    match rest with
    | c :: _ =>
      if utf8Cont c then some ((b - 0xC0) * 64 + (c - 0x80), 1) else none
    | [] => none
  else if b < 0xF0 then
    match rest with
    | c :: d :: _ =>
      if utf8Low3 b c && utf8Cont d then
        some ((b - 0xE0) * 4096 + (c - 0x80) * 64 + (d - 0x80), 2)
      else none
    | _ => none
  else if b < 0xF5 then
    match rest with
    | c :: d :: e :: _ =>
      if utf8Low4 b c && utf8Cont d && utf8Cont e then
        some ((b - 0xF0) * 262144 + (c - 0x80) * 4096 + (d - 0x80) * 64 + (e - 0x80), 3)
      else none
    | _ => none
  else none

/-- Validating UTF-8 decoding (`String::from_utf8` / `str::from_utf8`):
rejects continuation-byte errors, overlong forms, surrogates and code points
above `0x10FFFF`, exactly as Rust does. -/
def utf8Decode : Bytes → Option (List Nat)
  | [] => some []
  | b :: rest =>
    match utf8DecodeOne b rest with
    | some (p, k) => (utf8Decode (rest.drop k)).map (p :: ·)
    | none => none
termination_by bs => bs.length
decreasing_by
  simp only [List.length_drop, List.length_cons]
  omega

/-- Modelled from the spec: `encode_ucs4(text) -> bytes` — each code point as
4 little-endian bytes (UCS-4LE).  On Rust `&str` input (valid scalar values
only) the iconv conversion always succeeds, so this side is total. -/
def ucs4Encode (pts : List Nat) : Bytes :=
  (pts.map le4).flatten

/-- Modelled from the spec: `decode_ucs4(bytes) -> text` — consume 4
little-endian bytes per code point, failing on a trailing incomplete unit or
a unit that is not a Unicode scalar value (transcoding error). -/
def ucs4Decode : Bytes → Option (List Nat)
  | [] => some []
  | a :: b :: c :: d :: rest =>
    let p := a + 256 * b + 65536 * c + 16777216 * d
    if isScalar p then (ucs4Decode rest).map (p :: ·) else none
  | _ => none

/-- Modelled from the spec: `decode_ucs2(bytes) -> text` — consume 2
little-endian bytes per code point, failing on a trailing incomplete unit or
a surrogate (transcoding error). -/
def ucs2Decode : Bytes → Option (List Nat)
  | [] => some []
  | a :: b :: rest =>
    let p := a + 256 * b
    if isScalar p then (ucs2Decode rest).map (p :: ·) else none
  | _ => none

/-! ## The serde data model

Modelled from the spec (§6): the closed set of primitive kinds the codec's
serde adapter supports.  A `Value` is a supported host value described
through the serialize capability; a `Ty` is the target shape that drives the
type-directed deserializer (`from_bytes::<T>`). -/

/-- A string of the host data model, as its list of Unicode code points. -/
abbrev Str := List Nat

/-- Target shapes for `from_bytes::<T>`: the serde types the decoder in
`de.rs` implements.  Signed/unsigned integer widths, floats, char, string,
byte buffers, unit, option, sequences (`Vec<T>`), tuples/tuple structs,
braced structs (field name/type list), maps, and externally-tagged enums
(variant name with `none` for a unit variant or `some t` for the payload
shape of a newtype/tuple/struct variant). -/
inductive Ty where
  | tBool
  | tI8
  | tI16
  | tI32
  | tI64
  | tU8
  | tU16
  | tU32
  | tU64
  | tF64
  | tChar
  | tStr
  | tBytes
  | tUnit
  | tOpt (t : Ty)
  | tSeq (t : Ty)
  | tTuple (ts : List Ty)
  | tStruct (fs : List (Str × Ty))
  | tMap (kt vt : Ty)
  | tEnum (vs : List (Str × Option Ty))
  deriving Repr

/-- Supported host values.  `vF64` carries the 64-bit IEEE-754 bit pattern
(the codec moves float bytes, it never computes with the numeric value);
`vChar`/`vStr` carry Unicode code points; `vOpt (some x)` is `Some(x)`
serialized transparently; `vStruct` keeps fields in declaration order,
`vMap` entries in iteration order. -/
inductive Value where
  | vBool (b : Bool)
  | vI8 (n : Int)
  | vI16 (n : Int)
  | vI32 (n : Int)
  | vI64 (n : Int)
  | vU8 (n : Nat)
  | vU16 (n : Nat)
  | vU32 (n : Nat)
  | vU64 (n : Nat)
  | vF64 (bits : Nat)
  | vChar (p : Nat)
  | vStr (pts : List Nat)
  | vBytes (bs : List Nat)
  | vUnit
  | vOpt (o : Option Value)
  | vSeq (l : List Value)
  | vTuple (l : List Value)
  | vStruct (fs : List (Str × Value))
  | vMap (ps : List (Value × Value))
  | vEnum (name : Str) (payload : Option Value)
  deriving Repr

mutual

/-- `v` is a host value of serde type `t` (which `Serialize`/`Deserialize`
implementation pair the generic codec is instantiated at). -/
def hasTy : Value → Ty → Bool
  | .vBool _, t => match t with | .tBool => true | _ => false
  | .vI8 _, t => match t with | .tI8 => true | _ => false
  | .vI16 _, t => match t with | .tI16 => true | _ => false
  | .vI32 _, t => match t with | .tI32 => true | _ => false
  | .vI64 _, t => match t with | .tI64 => true | _ => false
  | .vU8 _, t => match t with | .tU8 => true | _ => false
  | .vU16 _, t => match t with | .tU16 => true | _ => false
  | .vU32 _, t => match t with | .tU32 => true | _ => false
  | .vU64 _, t => match t with | .tU64 => true | _ => false
  | .vF64 _, t => match t with | .tF64 => true | _ => false
  | .vChar _, t => match t with | .tChar => true | _ => false
  | .vStr _, t => match t with | .tStr => true | _ => false
  | .vBytes _, t => match t with | .tBytes => true | _ => false
  | .vUnit, t => match t with | .tUnit => true | _ => false
  | .vOpt none, t => match t with | .tOpt _ => true | _ => false
  | .vOpt (some x), t => match t with | .tOpt t1 => hasTy x t1 | _ => false
  | .vSeq l, t => match t with | .tSeq t1 => hasTyList l t1 | _ => false
  | .vTuple l, t => match t with | .tTuple ts => hasTyTuple l ts | _ => false
  | .vStruct fs, t => match t with | .tStruct fts => hasTyFields fs fts | _ => false
  | .vMap ps, t => match t with | .tMap kt vt => hasTyPairs ps kt vt | _ => false
  | .vEnum name pay, t =>
    match t with
    | .tEnum vs =>
      (match vs.lookup name, pay with
       | some none, none => true
       | some (some t1), some p => hasTy p t1
       | _, _ => false)
    | _ => false
termination_by v _ => sizeOf v

def hasTyList : List Value → Ty → Bool
  | [], _ => true
  | v :: l, t => hasTy v t && hasTyList l t
termination_by l _ => sizeOf l

def hasTyTuple : List Value → List Ty → Bool
  | [], [] => true
  | [], _ :: _ => false
  | _ :: _, [] => false
  | v :: l, t :: ts => hasTy v t && hasTyTuple l ts
termination_by l _ => sizeOf l

def hasTyFields : List (Str × Value) → List (Str × Ty) → Bool
  | [], [] => true
  | [], _ :: _ => false
  | _ :: _, [] => false
  | (n, v) :: l, (n2, t) :: ts => n == n2 && hasTy v t && hasTyFields l ts
termination_by l _ => sizeOf l

def hasTyPairs : List (Value × Value) → Ty → Ty → Bool
  | [], _, _ => true
  | (k, v) :: l, kt, vt => hasTy k kt && hasTy v vt && hasTyPairs l kt vt
termination_by l _ _ => sizeOf l

end

/-- Does the encoding of `v` start with the `none` tag byte `0x03`?  True
for the unit value, `None`, and any chain of `Some`s ending in one of those
(an option serializes its payload with no wrapper, `ser.rs`
`serialize_some`). -/
def noneHeaded : Value → Bool
  | .vUnit => true
  | .vOpt none => true
  | .vOpt (some x) => noneHeaded x
  | _ => false

/-- Well-formedness of a string value: Rust `&str` holds Unicode scalar
values, and its lengths fit an `i32` (`serialize_str` casts both the
character count and the byte count with `as i32`). -/
def strOk (pts : List Nat) : Bool :=
  pts.all isScalar && decide ((utf8Bytes pts).length < 2 ^ 31)

mutual

/-- Round-trippable host values: the invariants the host type system already
guarantees (integer carriers within their widths, chars and strings made of
Unicode scalar values, byte buffers of `u8`s, lengths within `i32`) together
with the two exclusions the code forces on the round-trip property:
no `u64` anywhere (encoded via the 32-bit integer path but decoded via the
binary path, so it never round-trips), and no `Some(x)` whose payload `x`
itself encodes as the `none` sentinel (Some(None) / Some(()) decode back as
`None`). -/
def okVal : Value → Bool
  | .vBool _ => true
  | .vI8 n => decide (-128 ≤ n ∧ n < 128)
  | .vI16 n => decide (-32768 ≤ n ∧ n < 32768)
  | .vI32 n => decide (-(2 ^ 31) ≤ n ∧ n < 2 ^ 31)
  | .vI64 n => decide (-(2 ^ 63) ≤ n ∧ n < 2 ^ 63)
  | .vU8 n => decide (n < 256)
  | .vU16 n => decide (n < 65536)
  | .vU32 n => decide (n < 2 ^ 32)
  | .vU64 _ => false
  | .vF64 bits => decide (bits < 2 ^ 64)
  | .vChar p => isScalar p
  | .vStr pts => strOk pts
  | .vBytes bs => bs.all (· < 256) && decide (bs.length < 2 ^ 31)
  | .vUnit => true
  | .vOpt none => true
  | .vOpt (some x) => okVal x && !noneHeaded x
  | .vSeq l => decide (l.length < 2 ^ 31) && okList l
  | .vTuple l => decide (l.length < 2 ^ 31) && okList l
  | .vStruct fs => decide (2 * fs.length < 2 ^ 31) && okFields fs
  | .vMap ps => decide (2 * ps.length < 2 ^ 31) && okPairs ps
  | .vEnum name pay =>
    strOk name &&
      match pay with
      | none => true
      | some p => okVal p
termination_by v => sizeOf v

def okList : List Value → Bool
  | [] => true
  | v :: l => okVal v && okList l
termination_by l => sizeOf l

def okFields : List (Str × Value) → Bool
  | [] => true
  | (n, v) :: l => strOk n && okVal v && okFields l
termination_by l => sizeOf l

def okPairs : List (Value × Value) → Bool
  | [] => true
  | (k, v) :: l => okVal k && okVal v && okPairs l
termination_by l => sizeOf l

end

/-! ## The encoder (`src/ser.rs`)

Each `serialize_*` function below is the byte output of the corresponding
serde `Serializer` method.  The serializer appends to a growing `Vec<u8>`;
here each function returns the bytes it appends.  Sub-values of containers
are serialized by fresh sub-serializers and their outputs concatenated
(`Serializer::elements`). -/

namespace types

def NONE : Nat := 0x03
def LOGIC : Nat := 0x04
def BLOCK : Nat := 0x05
def PAREN : Nat := 0x06
def STRING : Nat := 0x07
def CHAR : Nat := 0x0A
def INTEGER : Nat := 0x0B
def FLOAT : Nat := 0x0C
def BYTES : Nat := 0x29

end types

/-- `append_any_block_header`: 4-byte tag word, 4-byte head position
(always zero), 4-byte little-endian element count. -/
def append_any_block_header (length : Nat) (paren : Bool) : Bytes :=
  [if paren then types.PAREN else types.BLOCK, 0, 0, 0] ++ [0, 0, 0, 0] ++ le4 length

/-- `serialize_bool`: logic tag word, then `v as i32` little-endian. -/
def serialize_bool (b : Bool) : Bytes :=
  [types.LOGIC, 0, 0, 0] ++ le4 (if b then 1 else 0)

/-- `serialize_i32`: integer tag word, then the value's 4 little-endian
two's-complement bytes. -/
def serialize_i32 (n : Int) : Bytes :=
  [types.INTEGER, 0, 0, 0] ++ le4 (n % (2 ^ 32 : Int)).toNat

/-- `serialize_f64`: float tag word, then the 8 little-endian bytes of the
double with their two 4-byte words swapped (bytes `[4..8]` emitted before
bytes `[0..4]`). -/
def serialize_f64 (bits : Nat) : Bytes :=
  [types.FLOAT, 0, 0, 0] ++ ((le8 bits).drop 4 ++ (le8 bits).take 4)

/-- `serialize_char`: char tag word, then the UCS-4LE encoding of the
single code point (`ic.ucs4_encode` of the char's UTF-8 bytes). -/
def serialize_char (p : Nat) : Bytes :=
  [types.CHAR, 0, 0, 0] ++ le4 p

/-- `serialize_str`: string tag word whose second byte is the unit width,
4-byte zero head position, 4-byte little-endian character count, then the
content — raw bytes padded with zeros to a 4-byte boundary when the
character count equals the UTF-8 byte count (ASCII fast path, unit width 1),
otherwise the UCS-4LE re-encoding (unit width 4, already aligned, no
padding). -/
def serialize_str (pts : List Nat) : Bytes :=
  if pts.length % 2 ^ 32 = (utf8Bytes pts).length % 2 ^ 32 then
    [types.STRING, 0x01, 0, 0] ++ [0, 0, 0, 0] ++ le4 pts.length ++
      utf8Bytes pts ++ List.replicate ((4 - pts.length % 4) % 4) 0
  else
    [types.STRING, 0x04, 0, 0] ++ [0, 0, 0, 0] ++ le4 pts.length ++ ucs4Encode pts

/-- `serialize_bytes`: binary tag word with unit width 1, 4-byte zero head
position, 4-byte little-endian length, raw content, zero padding to a
4-byte boundary. -/
def serialize_bytes (bs : List Nat) : Bytes :=
  [types.BYTES, 0x01, 0, 0] ++ [0, 0, 0, 0] ++ le4 bs.length ++
    bs ++ List.replicate ((4 - bs.length % 4) % 4) 0

/-- `serialize_none` / `serialize_unit` / `serialize_unit_struct`: the
4-byte tag-only none sentinel. -/
def serialize_none : Bytes :=
  [types.NONE, 0, 0, 0]

mutual

/-- The bytes a `Serializer` appends for one value, driven by the value's
derived `Serialize` implementation.  Containers: sequences and maps count
their elements while appending them and prepend a block header at `end`
(`prepend_block_header`); tuples and structs write their header first
(`block_header_with`, element count known up front — `2 * fields` for a
struct); enum variants write a 1- or 2-element paren header
(`variant_header`) followed by the variant name and, when present, the
payload.  Fallible cases return the error of the corresponding source path.
-/
def encodeVal : Value → Except Err Bytes
  | .vBool b => .ok (serialize_bool b)
  | .vI8 n => .ok (serialize_i32 n)
  | .vI16 n => .ok (serialize_i32 n)
  | .vI32 n => .ok (serialize_i32 n)
  | .vI64 n =>
    if (2 ^ 31 - 1 : Int) < n ∨ n < -(2 ^ 31) then .error .Message
    else .ok (serialize_i32 n)
  | .vU8 n => .ok (serialize_i32 n)
  | .vU16 n => .ok (serialize_i32 n)
  | .vU32 n =>
    if (2 ^ 31 - 1 : Nat) < n then .error .Message else .ok (serialize_i32 n)
  | .vU64 n =>
    if (2 ^ 31 - 1 : Nat) < n then .error .Message else .ok (serialize_i32 n)
  | .vF64 bits => .ok (serialize_f64 bits)
  | .vChar p => .ok (serialize_char p)
  | .vStr pts => .ok (serialize_str pts)
  | .vBytes bs => .ok (serialize_bytes bs)
  | .vUnit => .ok serialize_none
  | .vOpt none => .ok serialize_none
  | .vOpt (some x) => encodeVal x
  | .vSeq l =>
    match encodeList l with
    | .ok parts => .ok (append_any_block_header l.length false ++ parts)
    | .error e => .error e
  | .vTuple l =>
    match encodeList l with
    | .ok parts => .ok (append_any_block_header l.length false ++ parts)
    | .error e => .error e
  | .vStruct fs =>
    match encodeFields fs with
    | .ok parts => .ok (append_any_block_header (2 * fs.length) false ++ parts)
    | .error e => .error e
  | .vMap ps =>
    match encodePairs ps with
    | .ok parts => .ok (append_any_block_header (2 * ps.length) false ++ parts)
    | .error e => .error e
  | .vEnum name none => .ok (append_any_block_header 1 true ++ serialize_str name)
  | .vEnum name (some p) =>
    match encodeVal p with
    | .ok pb => .ok (append_any_block_header 2 true ++ serialize_str name ++ pb)
    | .error e => .error e
termination_by v => sizeOf v

/-- Concatenated encodings of the elements of a sequence/tuple. -/
def encodeList : List Value → Except Err Bytes
  | [] => .ok []
  | v :: l =>
    match encodeVal v with
    | .ok b =>
      match encodeList l with
      | .ok bs => .ok (b ++ bs)
      | .error e => .error e
    | .error e => .error e
termination_by l => sizeOf l

/-- Concatenated encodings of struct fields: `serialize_field` serializes
the field name (a `&str`) and then the field value. -/
def encodeFields : List (Str × Value) → Except Err Bytes
  | [] => .ok []
  | (n, v) :: l =>
    match encodeVal v with
    | .ok b =>
      match encodeFields l with
      | .ok bs => .ok (serialize_str n ++ b ++ bs)
      | .error e => .error e
    | .error e => .error e
termination_by l => sizeOf l

/-- Concatenated encodings of map entries: `serialize_key` then
`serialize_value` per entry, in iteration order. -/
def encodePairs : List (Value × Value) → Except Err Bytes
  | [] => .ok []
  | (k, v) :: l =>
    match encodeVal k with
    | .ok kb =>
      match encodeVal v with
      | .ok vb =>
        match encodePairs l with
        | .ok bs => .ok (kb ++ vb ++ bs)
        | .error e => .error e
      | .error e => .error e
    | .error e => .error e
termination_by l => sizeOf l

end

/-- `to_bytes`: the 12-byte envelope prefix ("REDBIN", version 2, flags 0,
record count 1 little-endian), the 4-byte little-endian payload length
(`output.len() as i32`), then the payload. -/
def to_bytes (v : Value) : Except Err Bytes :=
  match encodeVal v with
  | .ok payload =>
    .ok ([0x52, 0x45, 0x44, 0x42, 0x49, 0x4E, 0x02, 0x00, 0x01, 0x00, 0x00, 0x00] ++
      le4 payload.length ++ payload)
  | .error e => .error e

/-! ## The decoder (`src/de.rs`)

Each `parse_*` function below consumes from the front of the remaining
input (the `Deserializer`'s shrinking `&[u8]`) and returns the parsed value
together with the remaining bytes.  Out-of-bounds slicing in the source
(`&input[..4]` and friends on a too-short buffer) and `unimplemented!`
branches are modelled by `DRes.abort`. -/

/-- `parse_padding`: skip every leading zero byte. -/
def parse_padding (bs : Bytes) : Bytes :=
  bs.dropWhile (· == 0)

/-- `parse_integer`: after padding, the 4-byte prefix must be the integer
tag word `[0x0B,0,0,0]`; the value is `i32::from_le_bytes` of bytes
`[4..8]`. -/
def parse_integer (bs0 : Bytes) : DRes (Int × Bytes) :=
  let bs := parse_padding bs0
  if bs.length < 4 then .abort
  else if bs.take 4 = [types.INTEGER, 0, 0, 0] then
    if bs.length < 8 then .abort
    else .ok (toI32 (leNat ((bs.drop 4).take 4)), bs.drop 8)
  else .err .ExpectedInteger

/-- `parse_logic`: like `parse_integer` with the logic tag word; any
nonzero 32-bit word is `true`. -/
def parse_logic (bs0 : Bytes) : DRes (Bool × Bytes) :=
  let bs := parse_padding bs0
  if bs.length < 4 then .abort
  else if bs.take 4 = [types.LOGIC, 0, 0, 0] then
    if bs.length < 8 then .abort
    else .ok (decide (leNat ((bs.drop 4).take 4) ≠ 0), bs.drop 8)
  else .err .ExpectedLogic

/-- `parse_float`: float tag word, then the bit pattern is
`f64::from_le_bytes` of bytes `[8..12]` concatenated with bytes `[4..8]`
(the inverse word swap). -/
def parse_float (bs0 : Bytes) : DRes (Nat × Bytes) :=
  let bs := parse_padding bs0
  if bs.length < 4 then .abort
  else if bs.take 4 = [types.FLOAT, 0, 0, 0] then
    if bs.length < 12 then .abort
    else .ok (leNat (((bs.drop 8).take 4) ++ ((bs.drop 4).take 4)), bs.drop 12)
  else .err .ExpectedFloat

/-- `parse_any_block_header`: the 4-byte prefix must be `[tag,0,0,0]`; the
head position at `[4..8]` is ignored, the element count is
`i32::from_le_bytes` of bytes `[8..12]`.  The error is `ExpectedBlock` for
both block and paren tags, as in the source. -/
def parse_any_block_header (record_type : Nat) (bs0 : Bytes) : DRes (Int × Bytes) :=
  let bs := parse_padding bs0
  if bs.length < 4 then .abort
  else if bs.take 4 = [record_type, 0, 0, 0] then
    if bs.length < 12 then .abort
    else .ok (toI32 (leNat ((bs.drop 8).take 4)), bs.drop 12)
  else .err .ExpectedBlock

/-- The `head` field of a string/binary header, read as `i32` at bytes
`[4..8]` and cast `as usize`. -/
def seriesHead (bs : Bytes) : Nat :=
  usizeOfI32 (toI32 (leNat ((bs.drop 4).take 4)))

/-- The `length` field of a string/binary header, read as `i32` at bytes
`[8..12]` and cast `as usize`. -/
def seriesLen (bs : Bytes) : Nat :=
  usizeOfI32 (toI32 (leNat ((bs.drop 8).take 4)))

/-- The content byte count `length * unit` (`usize` arithmetic). -/
def seriesBytes (bs : Bytes) (u : Nat) : Nat :=
  seriesLen bs * u % 2 ^ 64

/-- `parse_s` / `parse_binary` shared header logic: only byte 0 is checked
against the tag; byte 1 is the unit width, bit 3 of byte 2 the reference
flag (set → `unimplemented!`, an abort).  The content is the slice
`[head..length*unit]` of the bytes after the 12-byte header; the cursor
advances by `length*unit` bytes and then skips padding.  Returns the unit
width and the content slice.  (The source binds `head`, `length` and `n`
in local variables; here they are the named projections above.) -/
def parse_series (tag : Nat) (wrongTag : Err) (bs0 : Bytes) : DRes ((Nat × Bytes) × Bytes) :=
  match parse_padding bs0 with
  | [] => .abort
  | b :: tail =>
    if b ≠ tag then .err wrongTag
    else
      match tail with
      | u :: f :: _ =>
        if f.testBit 3 then .abort
        else if (b :: tail).length < 12 then .abort
        else if seriesHead (b :: tail) ≤ seriesBytes (b :: tail) u ∧
                seriesBytes (b :: tail) u ≤ ((b :: tail).drop 12).length then
          .ok
            ((u,
              (((b :: tail).drop 12).take (seriesBytes (b :: tail) u)).drop
                (seriesHead (b :: tail))),
              parse_padding (((b :: tail).drop 12).drop (seriesBytes (b :: tail) u)))
        else .abort
      | _ => .abort

/-- `parse_string`: series header with the string tag, then the content is
transcoded according to the unit width — UTF-8 for 1, UCS-2LE for 2, and
the UCS-4LE path for every other width.  Transcoding failures become
`Error::Message`. -/
def parse_string (bs : Bytes) : DRes (List Nat × Bytes) :=
  match parse_series types.STRING .ExpectedString bs with
  | .ok ((unit, content), rest) =>
    if unit = 1 then
      match utf8Decode content with
      | some pts => .ok (pts, rest)
      | none => .err .Message
    else if unit = 2 then
      match ucs2Decode content with
      | some pts => .ok (pts, rest)
      | none => .err .Message
    else
      match ucs4Decode content with
      | some pts => .ok (pts, rest)
      | none => .err .Message
  | .err e => .err e
  | .abort => .abort

/-- `parse_binary`: series header with the binary tag; unit width 1 yields
the raw content, any other unit width is `unimplemented!` (abort). -/
def parse_binary (bs : Bytes) : DRes (Bytes × Bytes) :=
  match parse_series types.BYTES .ExpectedBinary bs with
  | .ok ((unit, content), rest) =>
    if unit = 1 then .ok (content, rest) else .abort
  | .err e => .err e
  | .abort => .abort

/-- `parse_char`: only byte 0 is checked against the char tag; bytes
`[4..8]` are UCS-4 decoded and the first character taken (`unwrap`, an
abort were the decoded text empty). -/
def parse_char (bs0 : Bytes) : DRes (Nat × Bytes) :=
  let bs := parse_padding bs0
  match bs with
  | [] => .abort
  | b :: _ =>
    if b = types.CHAR then
      if bs.length < 8 then .abort
      else
        match ucs4Decode ((bs.drop 4).take 4) with
        | some (p :: _) => .ok (p, bs.drop 8)
        | some [] => .abort
        | none => .err .Message
    else .err .ExpectedChar

/-- `parse_none`: only byte 0 is checked against the none tag; the cursor
advances 4 bytes. -/
def parse_none (bs0 : Bytes) : DRes Bytes :=
  let bs := parse_padding bs0
  match bs with
  | [] => .abort
  | b :: _ =>
    if b = types.NONE then
      if bs.length < 4 then .abort else .ok (bs.drop 4)
    else .err .ExpectedNone

/-- `List.lookup` on an enum's variant table only returns payload shapes
stored in the table (needed for the decoder's termination). -/
theorem sizeOf_lookup_variant :
    ∀ (vs : List (Str × Option Ty)) (name : Str) (t : Ty),
      vs.lookup name = some (some t) → sizeOf t < sizeOf vs := by
  intro vs
  induction vs with
  | nil => intro name t h; simp [List.lookup] at h
  | cons hd tl ih =>
    intro name t h
    obtain ⟨n, o⟩ := hd
    rw [List.lookup] at h
    by_cases hn : (name == n) = true
    · rw [hn] at h
      cases h
      simp only [Prod.mk.sizeOf_spec, List.cons.sizeOf_spec, Option.some.sizeOf_spec]
      omega
    · rw [Bool.not_eq_true] at hn
      rw [hn] at h
      have := ih name t h
      simp only [List.cons.sizeOf_spec]
      omega

theorem ty_sizeOf_pos (t : Ty) : 0 < sizeOf t := by
  cases t <;> simp_arith

mutual

/-- The type-directed deserializer: the `Deserializer::deserialize_*`
method selected by the target type `t`, combined with the visitor of the
target type's derived `Deserialize` implementation (the serde collaborator,
modelled from the spec §4.4-§4.5; struct visitors are modelled as matching
their fields in declaration order).

Narrow integers (`i8`/`i16`/`u8`/`u16`, and `u32` against negatives) parse
through the shared 32-bit path and range-check against the target width;
`i64` parses the 32-bit path unchecked; `u64` parses a binary value and
reads its 8 bytes with `u64::from_le_bytes` (`try_into().unwrap()`, an
abort if the length differs).  Options peek for the none tag and otherwise
decode the payload in place.  Sequences read a block header and visit
exactly the announced number of elements; tuples visit their arity and
error if the announced count runs out first.  Maps and structs go through
`deserialize_map`: block header, the even-element-count check, then the
flattened key/value protocol.  Enums read a paren header: count 1 is a unit
variant named by a string, count 2 a variant name plus payload, anything
else is the enum arity error. -/
def decodeVal : Ty → Bytes → DRes (Value × Bytes)
  | .tBool, bs =>
    match parse_logic bs with
    | .ok (b, rest) => .ok (.vBool b, rest)
    | .err e => .err e
    | .abort => .abort
  | .tI8, bs =>
    match parse_integer bs with
    | .ok (v, rest) =>
      if 127 < v ∨ v < -128 then .err .Message else .ok (.vI8 v, rest)
    | .err e => .err e
    | .abort => .abort
  | .tI16, bs =>
    match parse_integer bs with
    | .ok (v, rest) =>
      if 32767 < v ∨ v < -32768 then .err .Message else .ok (.vI16 v, rest)
    | .err e => .err e
    | .abort => .abort
  | .tI32, bs =>
    match parse_integer bs with
    | .ok (v, rest) => .ok (.vI32 v, rest)
    | .err e => .err e
    | .abort => .abort
  | .tI64, bs =>
    match parse_integer bs with
    | .ok (v, rest) => .ok (.vI64 v, rest)
    | .err e => .err e
    | .abort => .abort
  | .tU8, bs =>
    match parse_integer bs with
    | .ok (v, rest) =>
      if 255 < v ∨ v < 0 then .err .Message else .ok (.vU8 v.toNat, rest)
    | .err e => .err e
    | .abort => .abort
  | .tU16, bs =>
    match parse_integer bs with
    | .ok (v, rest) =>
      if 65535 < v ∨ v < 0 then .err .Message else .ok (.vU16 v.toNat, rest)
    | .err e => .err e
    | .abort => .abort
  | .tU32, bs =>
    match parse_integer bs with
    | .ok (v, rest) =>
      if v < 0 then .err .Message else .ok (.vU32 v.toNat, rest)
    | .err e => .err e
    | .abort => .abort
  | .tU64, bs =>
    match parse_binary bs with
    | .ok (content, rest) =>
      if content.length = 8 then .ok (.vU64 (leNat content), rest) else .abort
    | .err e => .err e
    | .abort => .abort
  | .tF64, bs =>
    match parse_float bs with
    | .ok (bits, rest) => .ok (.vF64 bits, rest)
    | .err e => .err e
    | .abort => .abort
  | .tChar, bs =>
    match parse_char bs with
    | .ok (p, rest) => .ok (.vChar p, rest)
    | .err e => .err e
    | .abort => .abort
  | .tStr, bs =>
    match parse_string bs with
    | .ok (pts, rest) => .ok (.vStr pts, rest)
    | .err e => .err e
    | .abort => .abort
  | .tBytes, bs =>
    match parse_binary bs with
    | .ok (content, rest) => .ok (.vBytes content, rest)
    | .err e => .err e
    | .abort => .abort
  | .tUnit, bs =>
    match parse_none bs with
    | .ok rest => .ok (.vUnit, rest)
    | .err e => .err e
    | .abort => .abort
  | .tOpt t, bs0 =>
    match parse_padding bs0 with
    | [] => .abort
    | b :: tail =>
      if b = types.NONE then
        if (b :: tail).length < 4 then .abort else .ok (.vOpt none, (b :: tail).drop 4)
      else
        match decodeVal t (b :: tail) with
        | .ok (v, rest) => .ok (.vOpt (some v), rest)
        | .err e => .err e
        | .abort => .abort
  | .tSeq t, bs =>
    match parse_any_block_header types.BLOCK bs with
    | .ok (c, bs2) =>
      match decodeSeqElems t c.toNat bs2 with
      | .ok (l, rest) => .ok (.vSeq l, rest)
      | .err e => .err e
      | .abort => .abort
    | .err e => .err e
    | .abort => .abort
  | .tTuple ts, bs =>
    match parse_any_block_header types.BLOCK bs with
    | .ok (c, bs2) =>
      match decodeTupleElems ts c bs2 with
      | .ok (l, rest) => .ok (.vTuple l, rest)
      | .err e => .err e
      | .abort => .abort
    | .err e => .err e
    | .abort => .abort
  | .tStruct fs, bs =>
    match parse_any_block_header types.BLOCK bs with
    | .ok (c, bs2) =>
      if c.tmod 2 ≠ 0 then .err .ExpectedEvenLength
      else
        match decodeStructFields fs c bs2 with
        | .ok (l, rest) => .ok (.vStruct l, rest)
        | .err e => .err e
        | .abort => .abort
    | .err e => .err e
    | .abort => .abort
  | .tMap kt vt, bs =>
    match parse_any_block_header types.BLOCK bs with
    | .ok (c, bs2) =>
      if c.tmod 2 ≠ 0 then .err .ExpectedEvenLength
      else
        match decodeMapPairs kt vt c bs2 with
        | .ok (l, rest) => .ok (.vMap l, rest)
        | .err e => .err e
        | .abort => .abort
    | .err e => .err e
    | .abort => .abort
  | .tEnum vs, bs =>
    match parse_any_block_header types.PAREN bs with
    | .ok (c, bs2) =>
      if c = 1 then
        match parse_string bs2 with
        | .ok (name, bs3) =>
          match vs.lookup name with
          | some none => .ok (.vEnum name none, bs3)
          | some (some _) => .err .Message
          | none => .err .Message
        | .err e => .err e
        | .abort => .abort
      else if c = 2 then
        match parse_string bs2 with
        | .ok (name, bs3) =>
          match hLook : vs.lookup name with
          | some none => .err .ExpectedString
          | some (some t) =>
            have : sizeOf t < 1 + sizeOf vs := by
              have := sizeOf_lookup_variant vs name t hLook
              omega
            match decodeVal t bs3 with
            | .ok (p, bs4) => .ok (.vEnum name (some p), bs4)
            | .err e => .err e
            | .abort => .abort
          | none => .err .Message
        | .err e => .err e
        | .abort => .abort
      else .err .ExpectedEnum
    | .err e => .err e
    | .abort => .abort
termination_by t _ => (sizeOf t, 0)

/-- The `Vec<T>` visitor: `next_element_seed` until the element counter is
exhausted (`BlockData::next_element_seed` returns `None` once
`elements <= 0`). -/
def decodeSeqElems (t : Ty) : Nat → Bytes → DRes (List Value × Bytes)
  | 0, bs => .ok ([], bs)
  | n + 1, bs =>
    match decodeVal t bs with
    | .ok (v, bs2) =>
      match decodeSeqElems t n bs2 with
      | .ok (l, rest) => .ok (v :: l, rest)
      | .err e => .err e
      | .abort => .abort
    | .err e => .err e
    | .abort => .abort
termination_by n _ => (sizeOf t, n + 1)

/-- The derived tuple visitor: one `next_element_seed` per component; a
`None` (counter exhausted, `elements <= 0`) is reported by the derived
code as an invalid-length custom error. -/
def decodeTupleElems : List Ty → Int → Bytes → DRes (List Value × Bytes)
  | [], _, bs => .ok ([], bs)
  | t :: ts, c, bs =>
    if c ≤ 0 then .err .Message
    else
      match decodeVal t bs with
      | .ok (v, bs2) =>
        match decodeTupleElems ts (c - 1) bs2 with
        | .ok (l, rest) => .ok (v :: l, rest)
        | .err e => .err e
        | .abort => .abort
      | .err e => .err e
      | .abort => .abort
termination_by ts _ _ => (sizeOf ts, 0)

/-- The derived struct visitor over the flattened key/value stream,
modelled in declaration order: a key is requested only while at least two
elements remain (`MapAccess::next_key_seed`, else `None` and the derived
code reports a missing field), parsed as an identifier string and matched
against the expected field name, then the field value is decoded.  Once
every field is filled, a remaining key would be deserialized and its value
fed to `deserialize_ignored_any`, which is `unimplemented!` (abort). -/
def decodeStructFields : List (Str × Ty) → Int → Bytes → DRes (List (Str × Value) × Bytes)
  | [], c, bs =>
    if 2 ≤ c then
      match parse_string bs with
      | .ok _ => .abort
      | .err e => .err e
      | .abort => .abort
    else .ok ([], bs)
  | (name, t) :: fs, c, bs =>
    if c < 2 then .err .Message
    else
      match parse_string bs with
      | .ok (key, bs2) =>
        if key = name then
          match decodeVal t bs2 with
          | .ok (v, bs3) =>
            match decodeStructFields fs (c - 2) bs3 with
            | .ok (l, rest) => .ok ((name, v) :: l, rest)
            | .err e => .err e
            | .abort => .abort
          | .err e => .err e
          | .abort => .abort
        else .err .Message
      | .err e => .err e
      | .abort => .abort
termination_by fs _ _ => (sizeOf fs, 0)

/-- The map visitor (e.g. `BTreeMap`): `next_key_seed` returns `None` once
fewer than 2 elements remain, otherwise a key and then a value are decoded
(`next_value_seed`; its `elements < 1` guard cannot fire after a
successful key). -/
def decodeMapPairs (kt vt : Ty) (c : Int) (bs : Bytes) : DRes (List (Value × Value) × Bytes) :=
  if c < 2 then .ok ([], bs)
  else
    have _hk : 0 < sizeOf kt := ty_sizeOf_pos kt
    have _hv : 0 < sizeOf vt := ty_sizeOf_pos vt
    match decodeVal kt bs with
    | .ok (k, bs2) =>
      match decodeVal vt bs2 with
      | .ok (v, bs3) =>
        match decodeMapPairs kt vt (c - 2) bs3 with
        | .ok (l, rest) => .ok ((k, v) :: l, rest)
        | .err e => .err e
        | .abort => .abort
      | .err e => .err e
      | .abort => .abort
    | .err e => .err e
    | .abort => .abort
termination_by (sizeOf kt + sizeOf vt, c.toNat + 1)

end

/-- `from_bytes::<T>`: `parse_header` drops the 16-byte envelope prefix
without validating it (`&input[header_len..]`, an abort on a shorter
buffer), decodes exactly one value of the target type, and fails with
`TrailingBytes` unless the input is exhausted. -/
def from_bytes (t : Ty) (bs : Bytes) : DRes Value :=
  if bs.length < 16 then .abort
  else
    match decodeVal t (bs.drop 16) with
    | .ok (v, rest) => if rest = [] then .ok v else .err .TrailingBytes
    | .err e => .err e
    | .abort => .abort

/-! ## Cursor and arithmetic lemmas -/

/-- The bytes following an encoded value never begin with a zero byte (they
begin with the next value's tag byte, or are empty), so the decoder's
defensive padding skip consumes exactly the encoder's padding. -/
def goodRest (bs : Bytes) : Prop :=
  bs.head? ≠ some 0

theorem goodRest_nil : goodRest [] := by
  simp [goodRest]

theorem goodRest_cons {b : Nat} (h : b ≠ 0) (l : Bytes) : goodRest (b :: l) := by
  simp [goodRest, h]

theorem parse_padding_goodRest {bs : Bytes} (h : goodRest bs) :
    parse_padding bs = bs := by
  cases bs with
  | nil => rfl
  | cons b l =>
    simp only [goodRest, List.head?, ne_eq, Option.some.injEq] at h
    simp [parse_padding, List.dropWhile_cons, h]

theorem parse_padding_zeros_append {k : Nat} {bs : Bytes} (h : goodRest bs) :
    parse_padding (List.replicate k 0 ++ bs) = bs := by
  induction k with
  | zero => simp [parse_padding_goodRest h]
  | succ k ih =>
    simp only [List.replicate_succ, List.cons_append]
    simpa [parse_padding] using ih

theorem toI32_emod (n : Int) (h1 : -(2 ^ 31) ≤ n) (h2 : n < 2 ^ 31) :
    toI32 (n % (2 ^ 32 : Int)).toNat = n := by
  unfold toI32
  split
  · omega
  · omega

theorem usizeOfI32_ofNat (n : Nat) (h : n < 2 ^ 63) : usizeOfI32 (n : Int) = n := by
  unfold usizeOfI32
  omega

theorem leNat_le4_of_lt {n : Nat} (h : n < 2 ^ 32) : leNat (le4 n) = n := by
  rw [leNat_le4]
  omega

theorem toI32_le4_of_lt {n : Nat} (h : n < 2 ^ 31) :
    toI32 (leNat (le4 n)) = (n : Int) := by
  rw [leNat_le4_of_lt (by omega)]
  exact toI32_of_lt h

theorem Int.tmod_two_mul (n : Nat) : Int.tmod (2 * (n : Int)) 2 = 0 := by
  rw [Int.tmod_eq_emod (by positivity) (by norm_num)]
  omega

/-! ## Text codec lemmas -/

theorem utf8Char_ascii {p : Nat} (h : p < 0x80) : utf8Char p = [p] := by
  simp [utf8Char, h]

theorem utf8Char_length_pos (p : Nat) : 1 ≤ (utf8Char p).length := by
  unfold utf8Char
  split <;> try simp
  split <;> try simp
  split <;> simp

theorem utf8Char_length_eq_one {p : Nat} (h : (utf8Char p).length = 1) : p < 0x80 := by
  by_contra hc
  push_neg at hc
  unfold utf8Char at h
  rw [if_neg (by omega)] at h
  split at h
  · simp at h
  · split at h
    · simp at h
    · simp at h

theorem length_le_utf8Bytes (pts : List Nat) : pts.length ≤ (utf8Bytes pts).length := by
  induction pts with
  | nil => simp [utf8Bytes]
  | cons p l ih =>
    simp only [utf8Bytes, List.map_cons, List.flatten_cons, List.length_append,
      List.length_cons] at *
    have := utf8Char_length_pos p
    omega

theorem utf8Bytes_length_eq {pts : List Nat}
    (h : (utf8Bytes pts).length = pts.length) : ∀ p ∈ pts, p < 0x80 := by
  induction pts with
  | nil => simp
  | cons p l ih =>
    simp only [utf8Bytes, List.map_cons, List.flatten_cons, List.length_append,
      List.length_cons] at h
    have h1 := utf8Char_length_pos p
    have h2 := length_le_utf8Bytes l
    simp only [utf8Bytes] at h2
    intro q hq
    rcases List.mem_cons.mp hq with rfl | hql
    · exact utf8Char_length_eq_one (by omega)
    · exact ih (by simp only [utf8Bytes]; omega) q hql

theorem utf8Bytes_ascii {pts : List Nat} (h : ∀ p ∈ pts, p < 0x80) :
    utf8Bytes pts = pts := by
  induction pts with
  | nil => rfl
  | cons p l ih =>
    simp only [utf8Bytes, List.map_cons, List.flatten_cons]
    rw [utf8Char_ascii (h p (by simp))]
    simp only [List.cons_append, List.nil_append, List.cons.injEq, true_and]
    exact ih fun q hq => h q (by simp [hq])

theorem utf8Decode_ascii {pts : List Nat} (h : ∀ p ∈ pts, p < 0x80) :
    utf8Decode pts = some pts := by
  induction pts with
  | nil => rw [utf8Decode]
  | cons p l ih =>
    have hone : utf8DecodeOne p l = some (p, 0) := by
      unfold utf8DecodeOne
      rw [if_pos (h p (by simp))]
    rw [utf8Decode, hone]
    simp only [List.drop_zero]
    rw [ih fun q hq => h q (by simp [hq])]
    rfl

theorem ucs4Encode_length (pts : List Nat) : (ucs4Encode pts).length = 4 * pts.length := by
  induction pts with
  | nil => rfl
  | cons p l ih =>
    simp only [ucs4Encode, List.map_cons, List.flatten_cons, List.length_append,
      le4_length, List.length_cons] at *
    omega

theorem ucs4Decode_encode {pts : List Nat} (h : ∀ p ∈ pts, isScalar p = true) :
    ucs4Decode (ucs4Encode pts) = some pts := by
  induction pts with
  | nil => rfl
  | cons p l ih =>
    have hs : isScalar p = true := h p (by simp)
    have hlt : p < 2 ^ 32 := by
      simp only [isScalar, Bool.or_eq_true, decide_eq_true_eq, Bool.and_eq_true] at hs
      omega
    show ucs4Decode (le4 p ++ ucs4Encode l) = _
    simp only [le4, List.cons_append, List.nil_append]
    rw [ucs4Decode]
    have hp : p % 256 + 256 * (p / 256 % 256) + 65536 * (p / 256 ^ 2 % 256) +
        16777216 * (p / 256 ^ 3 % 256) = p := by omega
    rw [hp, if_pos hs, ih fun q hq => h q (by simp [hq])]
    rfl

/-! ## Head bytes of encoded values -/

/-- Every successful encoding is nonempty and starts with the value's tag
byte: in particular it never starts with a zero byte (so the decoder's
padding skip leaves it alone), and it starts with the none tag `0x03`
exactly for `noneHeaded` values. -/
theorem enc_head_facts (v : Value) (bs : Bytes) (h : encodeVal v = .ok bs) :
    bs ≠ [] ∧ bs.head? ≠ some 0 ∧ (noneHeaded v = false → bs.head? ≠ some types.NONE) := by
  match v with
  | .vOpt (some x) =>
    simp only [encodeVal] at h
    have hx := enc_head_facts x bs h
    exact ⟨hx.1, hx.2.1, fun hn => hx.2.2 (by simpa [noneHeaded] using hn)⟩
  | .vBool b =>
    simp only [encodeVal] at h
    cases h
    simp [serialize_bool, types.LOGIC, types.NONE]
  | .vI8 n =>
    simp only [encodeVal] at h
    cases h
    simp [serialize_i32, types.INTEGER, types.NONE]
  | .vI16 n =>
    simp only [encodeVal] at h
    cases h
    simp [serialize_i32, types.INTEGER, types.NONE]
  | .vI32 n =>
    simp only [encodeVal] at h
    cases h
    simp [serialize_i32, types.INTEGER, types.NONE]
  | .vI64 n =>
    simp only [encodeVal] at h
    split at h
    · cases h
    · cases h
      simp [serialize_i32, types.INTEGER, types.NONE]
  | .vU8 n =>
    simp only [encodeVal] at h
    cases h
    simp [serialize_i32, types.INTEGER, types.NONE]
  | .vU16 n =>
    simp only [encodeVal] at h
    cases h
    simp [serialize_i32, types.INTEGER, types.NONE]
  | .vU32 n =>
    simp only [encodeVal] at h
    split at h
    · cases h
    · cases h
      simp [serialize_i32, types.INTEGER, types.NONE]
  | .vU64 n =>
    simp only [encodeVal] at h
    split at h
    · cases h
    · cases h
      simp [serialize_i32, types.INTEGER, types.NONE]
  | .vF64 bits =>
    simp only [encodeVal] at h
    cases h
    simp [serialize_f64, types.FLOAT, types.NONE]
  | .vChar p =>
    simp only [encodeVal] at h
    cases h
    simp [serialize_char, types.CHAR, types.NONE]
  | .vStr pts =>
    simp only [encodeVal] at h
    cases h
    unfold serialize_str
    split <;> simp [types.STRING, types.NONE]
  | .vBytes l =>
    simp only [encodeVal] at h
    cases h
    simp [serialize_bytes, types.BYTES, types.NONE]
  | .vUnit =>
    simp only [encodeVal] at h
    cases h
    simp [serialize_none, noneHeaded, types.NONE]
  | .vOpt none =>
    simp only [encodeVal] at h
    cases h
    simp [serialize_none, noneHeaded, types.NONE]
  | .vSeq l =>
    simp only [encodeVal] at h
    split at h
    · cases h
      simp [append_any_block_header, types.BLOCK, types.NONE]
    · cases h
  | .vTuple l =>
    simp only [encodeVal] at h
    split at h
    · cases h
      simp [append_any_block_header, types.BLOCK, types.NONE]
    · cases h
  | .vStruct fs =>
    simp only [encodeVal] at h
    split at h
    · cases h
      simp [append_any_block_header, types.BLOCK, types.NONE]
    · cases h
  | .vMap ps =>
    simp only [encodeVal] at h
    split at h
    · cases h
      simp [append_any_block_header, types.BLOCK, types.NONE]
    · cases h
  | .vEnum name none =>
    simp only [encodeVal] at h
    cases h
    simp [append_any_block_header, types.PAREN, types.NONE]
  | .vEnum name (some p) =>
    simp only [encodeVal] at h
    split at h
    · cases h
      simp [append_any_block_header, types.PAREN, types.NONE]
    · cases h
termination_by sizeOf v

/-- Prepending a successful encoding preserves the no-leading-zero
property of the remaining input. -/
theorem enc_goodRest {v : Value} {bs rest : Bytes}
    (h : encodeVal v = .ok bs) (_hr : goodRest rest) : goodRest (bs ++ rest) := by
  obtain ⟨hne, hh, -⟩ := enc_head_facts v bs h
  cases bs with
  | nil => exact absurd rfl hne
  | cons b l =>
    simp only [List.head?, ne_eq, Option.some.injEq] at hh
    exact goodRest_cons hh _

theorem encodeList_goodRest {l : List Value} {parts rest : Bytes}
    (h : encodeList l = .ok parts) (hr : goodRest rest) : goodRest (parts ++ rest) := by
  induction l generalizing parts with
  | nil =>
    simp only [encodeList] at h
    cases h
    simpa using hr
  | cons v l ih =>
    simp only [encodeList] at h
    cases hv : encodeVal v with
    | error e => rw [hv] at h; cases h
    | ok b =>
      rw [hv] at h
      cases hl : encodeList l with
      | error e => rw [hl] at h; cases h
      | ok bs2 =>
        rw [hl] at h
        cases h
        rw [List.append_assoc]
        exact enc_goodRest hv (ih hl)

theorem encodeFields_goodRest {l : List (Str × Value)} {parts rest : Bytes}
    (h : encodeFields l = .ok parts) (hr : goodRest rest) : goodRest (parts ++ rest) := by
  induction l generalizing parts with
  | nil =>
    simp only [encodeFields] at h
    cases h
    simpa using hr
  | cons f l ih =>
    obtain ⟨n, v⟩ := f
    simp only [encodeFields] at h
    cases hv : encodeVal v with
    | error e => rw [hv] at h; cases h
    | ok b =>
      rw [hv] at h
      cases hl : encodeFields l with
      | error e => rw [hl] at h; cases h
      | ok bs2 =>
        rw [hl] at h
        cases h
        have hn : goodRest (serialize_str n ++ (b ++ (bs2 ++ rest))) := by
          unfold serialize_str
          split <;> exact goodRest_cons (by simp [types.STRING]) _
        simpa [List.append_assoc] using hn

theorem encodePairs_goodRest {l : List (Value × Value)} {parts rest : Bytes}
    (h : encodePairs l = .ok parts) (hr : goodRest rest) : goodRest (parts ++ rest) := by
  induction l generalizing parts with
  | nil =>
    simp only [encodePairs] at h
    cases h
    simpa using hr
  | cons p l ih =>
    obtain ⟨k, v⟩ := p
    simp only [encodePairs] at h
    cases hk : encodeVal k with
    | error e => rw [hk] at h; cases h
    | ok kb =>
      rw [hk] at h
      cases hv : encodeVal v with
      | error e => rw [hv] at h; cases h
      | ok vb =>
        rw [hv] at h
        cases hl : encodePairs l with
        | error e => rw [hl] at h; cases h
        | ok bs2 =>
          rw [hl] at h
          cases h
          have : goodRest (kb ++ (vb ++ (bs2 ++ rest))) :=
            enc_goodRest hk (enc_goodRest hv (ih hl))
          simpa [List.append_assoc] using this

/-! ## Parse lemmas: each parser applied to the corresponding encoding -/

theorem drop8_append4 (l1 l2 : Bytes) (h : l1.length = 4) :
    ((l1 ++ l2).drop 8 : Bytes) = l2.drop 4 := by
  match l1, h with
  | [a, b, c, d], _ => simp


theorem parse_integer_ser (n : Int) (rest : Bytes) :
    parse_integer (serialize_i32 n ++ rest) =
      .ok (toI32 (n % (2 ^ 32 : Int)).toNat, rest) := by
  have h4 : (le4 (n % (2 ^ 32 : Int)).toNat).length = 4 := le4_length _
  unfold serialize_i32 parse_integer
  simp only [List.cons_append, List.nil_append]
  rw [parse_padding_goodRest (goodRest_cons (by simp [types.INTEGER]) _)]
  simp only [List.length_cons, List.length_append, h4, List.take_succ_cons,
    List.take_zero, List.drop_succ_cons, List.drop_zero, types.INTEGER]
  rw [if_neg (by omega), if_pos trivial, if_neg (by omega)]
  rw [List.take_left' h4, List.drop_left' h4, leNat_le4]
  have hlt : (n % (2 ^ 32 : Int)).toNat < 2 ^ 32 := by omega
  rw [Nat.mod_eq_of_lt hlt]

theorem parse_integer_ser_small (n : Int) (h1 : -(2 ^ 31) ≤ n) (h2 : n < 2 ^ 31)
    (rest : Bytes) :
    parse_integer (serialize_i32 n ++ rest) = .ok (n, rest) := by
  rw [parse_integer_ser, toI32_emod n h1 h2]

theorem parse_logic_ser (b : Bool) (rest : Bytes) :
    parse_logic (serialize_bool b ++ rest) = .ok (b, rest) := by
  have h4 : (le4 (if b then 1 else 0)).length = 4 := le4_length _
  unfold serialize_bool parse_logic
  simp only [types.LOGIC, List.cons_append, List.nil_append]
  have hpad : parse_padding
      ((4 : Nat) :: 0 :: 0 :: 0 :: (le4 (if b then 1 else 0) ++ rest)) =
      (4 : Nat) :: 0 :: 0 :: 0 :: (le4 (if b then 1 else 0) ++ rest) :=
    parse_padding_goodRest (goodRest_cons (by norm_num) _)
  simp only [hpad, List.length_cons, List.length_append, h4, List.take_succ_cons,
    List.take_zero, List.drop_succ_cons, List.drop_zero]
  rw [if_neg (by omega), if_pos trivial, if_neg (by omega)]
  simp only [List.take_left' h4, List.drop_left' h4, leNat_le4]
  cases b <;> simp

theorem parse_float_ser (bits : Nat) (rest : Bytes) :
    parse_float (serialize_f64 bits ++ rest) = .ok (bits % 2 ^ 64, rest) := by
  have hlo : (le4 (bits % 2 ^ 32)).length = 4 := le4_length _
  have hhi : (le4 (bits / 2 ^ 32)).length = 4 := le4_length _
  unfold serialize_f64 parse_float
  rw [show (le8 bits).drop 4 = le4 (bits / 2 ^ 32) from List.drop_left' hlo,
    show (le8 bits).take 4 = le4 (bits % 2 ^ 32) from List.take_left' hlo]
  simp only [types.FLOAT, List.cons_append, List.nil_append, List.append_assoc]
  have hpad : parse_padding
      ((12 : Nat) :: 0 :: 0 :: 0 :: (le4 (bits / 2 ^ 32) ++ (le4 (bits % 2 ^ 32) ++ rest))) =
      (12 : Nat) :: 0 :: 0 :: 0 :: (le4 (bits / 2 ^ 32) ++ (le4 (bits % 2 ^ 32) ++ rest)) :=
    parse_padding_goodRest (goodRest_cons (by norm_num) _)
  simp only [hpad, List.length_cons, List.length_append, hlo, hhi, List.take_succ_cons,
    List.take_zero, List.drop_succ_cons, List.drop_zero]
  rw [if_neg (by omega), if_pos trivial, if_neg (by omega)]
  simp only [List.take_left' hhi,
    show (le4 (bits / 2 ^ 32) ++ (le4 (bits % 2 ^ 32) ++ rest)).drop 4 =
      le4 (bits % 2 ^ 32) ++ rest from List.drop_left' hhi,
    List.take_left' hlo,
    drop8_append4 _ _ hhi,
    show (le4 (bits % 2 ^ 32) ++ rest).drop 4 = rest from List.drop_left' hlo]
  rw [show le4 (bits % 2 ^ 32) ++ le4 (bits / 2 ^ 32) = le8 bits from rfl, leNat_le8]

theorem parse_block_ser_block (n : Nat) (hn : n < 2 ^ 31) (rest : Bytes) :
    parse_any_block_header types.BLOCK (append_any_block_header n false ++ rest) =
      .ok ((n : Int), rest) := by
  have h4 : (le4 n).length = 4 := le4_length _
  unfold append_any_block_header parse_any_block_header
  simp only [types.BLOCK, types.PAREN, Bool.false_eq_true, if_false,
    List.cons_append, List.nil_append, List.append_assoc]
  have hpad : parse_padding ((5 : Nat) :: 0 :: 0 :: 0 :: (0 :: 0 :: 0 :: 0 :: (le4 n ++ rest))) =
      (5 : Nat) :: 0 :: 0 :: 0 :: (0 :: 0 :: 0 :: 0 :: (le4 n ++ rest)) :=
    parse_padding_goodRest (goodRest_cons (by norm_num) _)
  simp only [hpad, List.length_cons, List.length_append, h4, List.take_succ_cons,
    List.take_zero, List.drop_succ_cons, List.drop_zero]
  rw [if_neg (by omega), if_pos trivial, if_neg (by omega)]
  rw [List.take_left' h4, List.drop_left' h4, toI32_le4_of_lt hn]

theorem parse_block_ser_paren (n : Nat) (hn : n < 2 ^ 31) (rest : Bytes) :
    parse_any_block_header types.PAREN (append_any_block_header n true ++ rest) =
      .ok ((n : Int), rest) := by
  have h4 : (le4 n).length = 4 := le4_length _
  unfold append_any_block_header parse_any_block_header
  simp only [types.BLOCK, types.PAREN, if_true,
    List.cons_append, List.nil_append, List.append_assoc]
  have hpad : parse_padding ((6 : Nat) :: 0 :: 0 :: 0 :: (0 :: 0 :: 0 :: 0 :: (le4 n ++ rest))) =
      (6 : Nat) :: 0 :: 0 :: 0 :: (0 :: 0 :: 0 :: 0 :: (le4 n ++ rest)) :=
    parse_padding_goodRest (goodRest_cons (by norm_num) _)
  simp only [hpad, List.length_cons, List.length_append, h4, List.take_succ_cons,
    List.take_zero, List.drop_succ_cons, List.drop_zero]
  rw [if_neg (by omega), if_pos trivial, if_neg (by omega)]
  rw [List.take_left' h4, List.drop_left' h4, toI32_le4_of_lt hn]

theorem parse_none_ser (rest : Bytes) :
    parse_none (serialize_none ++ rest) = .ok rest := by
  unfold serialize_none parse_none
  simp only [types.NONE, List.cons_append, List.nil_append]
  have hpad : parse_padding ((3 : Nat) :: 0 :: 0 :: 0 :: rest) =
      (3 : Nat) :: 0 :: 0 :: 0 :: rest :=
    parse_padding_goodRest (goodRest_cons (by norm_num) _)
  simp only [hpad, List.length_cons, List.drop_succ_cons, List.drop_zero]
  rw [if_pos trivial, if_neg (by omega)]

theorem parse_char_ser (p : Nat) (hp : isScalar p = true) (rest : Bytes) :
    parse_char (serialize_char p ++ rest) = .ok (p, rest) := by
  have h4 : (le4 p).length = 4 := le4_length _
  have hdec : ucs4Decode (le4 p) = some [p] := by
    have := @ucs4Decode_encode [p] (by simpa using hp)
    simpa [ucs4Encode] using this
  unfold serialize_char parse_char
  simp only [types.CHAR, List.cons_append, List.nil_append]
  have hpad : parse_padding ((10 : Nat) :: 0 :: 0 :: 0 :: (le4 p ++ rest)) =
      (10 : Nat) :: 0 :: 0 :: 0 :: (le4 p ++ rest) :=
    parse_padding_goodRest (goodRest_cons (by norm_num) _)
  simp only [hpad, List.length_cons, List.length_append, h4, List.take_succ_cons,
    List.take_zero, List.drop_succ_cons, List.drop_zero]
  rw [if_pos trivial, if_neg (by omega)]
  simp only [List.take_left' h4, List.drop_left' h4, hdec]

/-- The shared series parse applied to a well-formed encoder-produced
header and content: the content and the unit width come back and the
cursor lands exactly on the following bytes. -/
theorem parse_series_ser (tag unit len k : Nat) (content rest : Bytes) (er : Err)
    (htag : tag ≠ 0) (hunit : unit < 256) (hlen : len < 2 ^ 31)
    (hcontent : content.length = len * unit) (hrest : goodRest rest) :
    parse_series tag er
        ([tag, unit, 0, 0] ++ [0, 0, 0, 0] ++ le4 len ++ content ++
          List.replicate k 0 ++ rest) =
      .ok ((unit, content), rest) := by
  have h4 : (le4 len).length = 4 := le4_length _
  have hmul : len * unit < 2 ^ 64 := by
    have := Nat.mul_le_mul (Nat.le_of_lt hlen) (Nat.le_of_lt hunit)
    omega
  have hpad : parse_padding
      (tag :: unit :: 0 :: 0 :: 0 :: 0 :: 0 :: 0 ::
        (le4 len ++ (content ++ (List.replicate k 0 ++ rest)))) =
      tag :: unit :: 0 :: 0 :: 0 :: 0 :: 0 :: 0 ::
        (le4 len ++ (content ++ (List.replicate k 0 ++ rest))) :=
    parse_padding_goodRest (goodRest_cons htag _)
  have hsh : seriesHead
      (tag :: unit :: 0 :: 0 :: 0 :: 0 :: 0 :: 0 ::
        (le4 len ++ (content ++ (List.replicate k 0 ++ rest)))) = 0 := by
    unfold seriesHead
    simp only [List.drop_succ_cons, List.drop_zero, List.take_succ_cons, List.take_zero]
    rfl
  have hsb : seriesBytes
      (tag :: unit :: 0 :: 0 :: 0 :: 0 :: 0 :: 0 ::
        (le4 len ++ (content ++ (List.replicate k 0 ++ rest)))) unit = len * unit := by
    unfold seriesBytes seriesLen
    simp only [List.drop_succ_cons, List.drop_zero, List.take_left' h4, leNat_le4]
    rw [Nat.mod_eq_of_lt (show len < 2 ^ 32 by omega)]
    rw [toI32_of_lt hlen]
    rw [usizeOfI32_ofNat len (by omega)]
    exact Nat.mod_eq_of_lt hmul
  have hdrop : ((tag :: unit :: 0 :: 0 :: 0 :: 0 :: 0 :: 0 ::
        (le4 len ++ (content ++ (List.replicate k 0 ++ rest)))).drop 12 :
        Bytes) =
      content ++ (List.replicate k 0 ++ rest) := by
    simp only [List.drop_succ_cons, List.drop_zero]
    exact List.drop_left' h4
  unfold parse_series
  simp only [List.cons_append, List.nil_append, List.append_assoc, hpad]
  rw [if_neg (by simp)]
  rw [if_neg (by decide)]
  rw [if_neg (by simp only [List.length_cons, List.length_append, h4]; omega)]
  rw [if_pos (by
    rw [hsh, hsb, hdrop]
    refine ⟨Nat.zero_le _, ?_⟩
    simp only [List.length_append, List.length_replicate]
    omega)]
  rw [hsh, hsb, hdrop]
  rw [List.take_left' (by omega : content.length = len * unit), List.drop_zero,
    List.drop_left' (by omega : content.length = len * unit)]
  rw [parse_padding_zeros_append hrest]

theorem parse_string_ser (pts : List Nat) (h : strOk pts = true) (rest : Bytes)
    (hrest : goodRest rest) :
    parse_string (serialize_str pts ++ rest) = .ok (pts, rest) := by
  have hall : ∀ p ∈ pts, isScalar p = true := by
    simp only [strOk, Bool.and_eq_true, List.all_eq_true, decide_eq_true_eq] at h
    exact h.1
  have hblen : (utf8Bytes pts).length < 2 ^ 31 := by
    simp only [strOk, Bool.and_eq_true, List.all_eq_true, decide_eq_true_eq] at h
    exact h.2
  have hle : pts.length ≤ (utf8Bytes pts).length := length_le_utf8Bytes pts
  unfold parse_string serialize_str
  by_cases hA : pts.length % 2 ^ 32 = (utf8Bytes pts).length % 2 ^ 32
  · rw [if_pos hA]
    have heq : (utf8Bytes pts).length = pts.length := by omega
    have hascii : ∀ p ∈ pts, p < 0x80 := utf8Bytes_length_eq heq
    rw [utf8Bytes_ascii hascii]
    rw [parse_series_ser types.STRING 1 pts.length ((4 - pts.length % 4) % 4) pts rest
      .ExpectedString (by simp [types.STRING]) (by norm_num) (by omega) (by omega) hrest]
    simp [utf8Decode_ascii hascii]
  · rw [if_neg hA]
    have hlen : pts.length < 2 ^ 31 := by omega
    rw [show ([types.STRING, 0x04, 0, 0] ++ [0, 0, 0, 0] ++ le4 pts.length ++
          ucs4Encode pts) ++ rest =
        [types.STRING, 0x04, 0, 0] ++ [0, 0, 0, 0] ++ le4 pts.length ++
          ucs4Encode pts ++ List.replicate 0 0 ++ rest by simp]
    rw [parse_series_ser types.STRING 4 pts.length 0 (ucs4Encode pts) rest
      .ExpectedString (by simp [types.STRING]) (by norm_num) hlen
      (by rw [ucs4Encode_length]; ring) hrest]
    simp [ucs4Decode_encode hall]

theorem parse_binary_ser (l : Bytes) (hlen : l.length < 2 ^ 31) (rest : Bytes)
    (hrest : goodRest rest) :
    parse_binary (serialize_bytes l ++ rest) = .ok (l, rest) := by
  unfold parse_binary serialize_bytes
  rw [parse_series_ser types.BYTES 1 l.length ((4 - l.length % 4) % 4) l rest
    .ExpectedBinary (by simp [types.BYTES]) (by norm_num) hlen (by omega) hrest]
  simp

/-! ## Round-trip: decoding an encoded value -/

/-- The round-trip property of a single value, used as the induction
hypothesis for the container lemmas. -/
def DecEnc (v : Value) : Prop :=
  ∀ (t : Ty), hasTy v t = true → okVal v = true →
    ∀ (bs rest : Bytes), encodeVal v = .ok bs → goodRest rest →
      decodeVal t (bs ++ rest) = .ok (v, rest)

theorem decodeSeqElems_ok (t : Ty) (l : List Value)
    (IH : ∀ x ∈ l, DecEnc x)
    (hT : hasTyList l t = true) (hV : okList l = true)
    (parts rest : Bytes) (henc : encodeList l = .ok parts) (hrest : goodRest rest) :
    decodeSeqElems t l.length (parts ++ rest) = .ok (l, rest) := by
  induction l generalizing parts with
  | nil =>
    simp only [encodeList] at henc
    cases henc
    simp only [List.length_nil, List.nil_append]
    rw [decodeSeqElems]
  | cons v l ih =>
    simp only [encodeList] at henc
    cases hv : encodeVal v with
    | error e => rw [hv] at henc; cases henc
    | ok b =>
      rw [hv] at henc
      cases hl : encodeList l with
      | error e => rw [hl] at henc; cases henc
      | ok parts2 =>
        rw [hl] at henc
        cases henc
        simp only [hasTyList, Bool.and_eq_true] at hT
        simp only [okList, Bool.and_eq_true] at hV
        have hrest2 : goodRest (parts2 ++ rest) := encodeList_goodRest hl hrest
        simp only [List.length_cons]
        rw [decodeSeqElems]
        rw [List.append_assoc]
        rw [IH v (by simp) t hT.1 hV.1 b (parts2 ++ rest) hv hrest2]
        dsimp only
        rw [ih (fun x hx => IH x (by simp [hx])) hT.2 hV.2 parts2 hl]

theorem decodeTupleElems_ok (ts : List Ty) (l : List Value) (c : Int)
    (IH : ∀ x ∈ l, DecEnc x)
    (hT : hasTyTuple l ts = true) (hV : okList l = true)
    (hc : (l.length : Int) ≤ c)
    (parts rest : Bytes) (henc : encodeList l = .ok parts) (hrest : goodRest rest) :
    decodeTupleElems ts c (parts ++ rest) = .ok (l, rest) := by
  induction l generalizing parts c ts with
  | nil =>
    cases ts with
    | cons t ts => simp [hasTyTuple] at hT
    | nil =>
      simp only [encodeList] at henc
      cases henc
      simp only [List.nil_append]
      rw [decodeTupleElems]
  | cons v l ih =>
    cases ts with
    | nil => simp [hasTyTuple] at hT
    | cons t ts =>
      simp only [encodeList] at henc
      cases hv : encodeVal v with
      | error e => rw [hv] at henc; cases henc
      | ok b =>
        rw [hv] at henc
        cases hl : encodeList l with
        | error e => rw [hl] at henc; cases henc
        | ok parts2 =>
          rw [hl] at henc
          cases henc
          simp only [hasTyTuple, Bool.and_eq_true] at hT
          simp only [okList, Bool.and_eq_true] at hV
          simp only [List.length_cons] at hc
          have hrest2 : goodRest (parts2 ++ rest) := encodeList_goodRest hl hrest
          rw [decodeTupleElems]
          rw [if_neg (by push_cast at hc ⊢; omega)]
          rw [List.append_assoc]
          rw [IH v (by simp) t hT.1 hV.1 b (parts2 ++ rest) hv hrest2]
          dsimp only
          rw [ih ts (c - 1) (fun x hx => IH x (by simp [hx])) hT.2 hV.2
            (by push_cast at hc ⊢; omega) parts2 hl]

theorem decodeStructFields_ok (fts : List (Str × Ty)) (l : List (Str × Value))
    (IH : ∀ x ∈ l, DecEnc x.2)
    (hT : hasTyFields l fts = true) (hV : okFields l = true)
    (parts rest : Bytes) (henc : encodeFields l = .ok parts) (hrest : goodRest rest) :
    decodeStructFields fts (2 * l.length) (parts ++ rest) = .ok (l, rest) := by
  induction l generalizing parts fts with
  | nil =>
    cases fts with
    | cons f fts => simp [hasTyFields] at hT
    | nil =>
      simp only [encodeFields] at henc
      cases henc
      simp only [List.length_nil, List.nil_append]
      rw [decodeStructFields]
      rw [if_neg (by norm_num)]
  | cons f l ih =>
    obtain ⟨n, v⟩ := f
    cases fts with
    | nil => simp [hasTyFields] at hT
    | cons ft fts =>
      obtain ⟨n2, t⟩ := ft
      simp only [encodeFields] at henc
      cases hv : encodeVal v with
      | error e => rw [hv] at henc; cases henc
      | ok b =>
        rw [hv] at henc
        cases hl : encodeFields l with
        | error e => rw [hl] at henc; cases henc
        | ok parts2 =>
          rw [hl] at henc
          cases henc
          simp only [hasTyFields, Bool.and_eq_true, beq_iff_eq] at hT
          obtain ⟨⟨hn, hvt⟩, hT2⟩ := hT
          subst hn
          simp only [okFields, Bool.and_eq_true] at hV
          obtain ⟨⟨hsn, hok⟩, hV2⟩ := hV
          have hrestb : goodRest (b ++ (parts2 ++ rest)) :=
            enc_goodRest hv (encodeFields_goodRest hl hrest)
          rw [decodeStructFields]
          rw [if_neg (by simp only [List.length_cons]; push_cast; omega)]
          rw [List.append_assoc, List.append_assoc]
          rw [parse_string_ser n hsn (b ++ (parts2 ++ rest)) hrestb]
          dsimp only
          rw [if_pos rfl]
          rw [IH (n, v) (by simp) t hvt hok b (parts2 ++ rest) hv
            (encodeFields_goodRest hl hrest)]
          dsimp only
          simp only [List.length_cons]
          rw [show (2 : Int) * ((l.length + 1 : Nat) : Int) - 2 =
              2 * ((l.length : Nat) : Int) by push_cast; ring]
          rw [ih fts (fun x hx => IH x (by simp [hx])) hT2 hV2 parts2 hl]

theorem decodeMapPairs_ok (kt vt : Ty) (l : List (Value × Value))
    (IHk : ∀ x ∈ l, DecEnc x.1) (IHv : ∀ x ∈ l, DecEnc x.2)
    (hT : hasTyPairs l kt vt = true) (hV : okPairs l = true)
    (parts rest : Bytes) (henc : encodePairs l = .ok parts) (hrest : goodRest rest) :
    decodeMapPairs kt vt (2 * l.length) (parts ++ rest) = .ok (l, rest) := by
  induction l generalizing parts with
  | nil =>
    simp only [encodePairs] at henc
    cases henc
    simp only [List.length_nil, List.nil_append]
    rw [decodeMapPairs]
    rw [if_pos (by norm_num)]
  | cons p l ih =>
    obtain ⟨k, v⟩ := p
    simp only [encodePairs] at henc
    cases hk : encodeVal k with
    | error e => rw [hk] at henc; cases henc
    | ok kb =>
      rw [hk] at henc
      cases hv : encodeVal v with
      | error e => rw [hv] at henc; cases henc
      | ok vb =>
        rw [hv] at henc
        cases hl : encodePairs l with
        | error e => rw [hl] at henc; cases henc
        | ok parts2 =>
          rw [hl] at henc
          cases henc
          simp only [hasTyPairs, Bool.and_eq_true] at hT
          obtain ⟨⟨hkt, hvt⟩, hT2⟩ := hT
          simp only [okPairs, Bool.and_eq_true] at hV
          obtain ⟨⟨hok1, hok2⟩, hV2⟩ := hV
          have hg2 : goodRest (parts2 ++ rest) := encodePairs_goodRest hl hrest
          have hg1 : goodRest (vb ++ (parts2 ++ rest)) := enc_goodRest hv hg2
          rw [decodeMapPairs]
          rw [if_neg (by simp only [List.length_cons]; push_cast; omega)]
          rw [List.append_assoc, List.append_assoc]
          rw [IHk (k, v) (by simp) kt hkt hok1 kb (vb ++ (parts2 ++ rest)) hk hg1]
          dsimp only
          rw [IHv (k, v) (by simp) vt hvt hok2 vb (parts2 ++ rest) hv hg2]
          dsimp only
          simp only [List.length_cons]
          rw [show (2 : Int) * ((l.length + 1 : Nat) : Int) - 2 =
              2 * ((l.length : Nat) : Int) by push_cast; ring]
          rw [ih (fun x hx => IHk x (by simp [hx])) (fun x hx => IHv x (by simp [hx]))
            hT2 hV2 parts2 hl]

theorem value_sizeOf_pos (v : Value) : 0 < sizeOf v := by
  cases v <;> simp_arith

/-- Round-trip at the payload level, by strong induction on the size of the
value: decoding the encoding of a round-trippable value of the matching
serde type consumes exactly the encoding and returns the value. -/
theorem decode_encode_aux : ∀ (N : Nat) (v : Value), sizeOf v ≤ N → DecEnc v := by
  intro N
  induction N with
  | zero =>
    intro v hv
    exact absurd hv (by have := value_sizeOf_pos v; omega)
  | succ N ihN =>
    intro v hv t hT hV bs rest henc hrest
    cases v with
    | vBool b =>
      unfold hasTy at hT
      split at hT
      · simp only [encodeVal] at henc
        cases henc
        rw [decodeVal, parse_logic_ser b rest]
      · exact absurd hT (by simp)
    | vI8 n =>
      unfold hasTy at hT
      split at hT
      · simp only [encodeVal] at henc
        cases henc
        simp only [okVal, decide_eq_true_eq] at hV
        rw [decodeVal, parse_integer_ser_small n (by omega) (by omega) rest]
        dsimp only
        rw [if_neg (by omega)]
      · exact absurd hT (by simp)
    | vI16 n =>
      unfold hasTy at hT
      split at hT
      · simp only [encodeVal] at henc
        cases henc
        simp only [okVal, decide_eq_true_eq] at hV
        rw [decodeVal, parse_integer_ser_small n (by omega) (by omega) rest]
        dsimp only
        rw [if_neg (by omega)]
      · exact absurd hT (by simp)
    | vI32 n =>
      unfold hasTy at hT
      split at hT
      · simp only [encodeVal] at henc
        cases henc
        simp only [okVal, decide_eq_true_eq] at hV
        rw [decodeVal, parse_integer_ser_small n (by omega) (by omega) rest]
      · exact absurd hT (by simp)
    | vI64 n =>
      unfold hasTy at hT
      split at hT
      · simp only [encodeVal] at henc
        split at henc
        · cases henc
        · cases henc
          rename_i hcond
          rw [decodeVal, parse_integer_ser_small n (by omega) (by omega) rest]
      · exact absurd hT (by simp)
    | vU8 n =>
      unfold hasTy at hT
      split at hT
      · simp only [encodeVal] at henc
        cases henc
        simp only [okVal, decide_eq_true_eq] at hV
        rw [decodeVal, parse_integer_ser_small n (by omega) (by omega) rest]
        dsimp only
        rw [if_neg (by omega), Int.toNat_natCast]
      · exact absurd hT (by simp)
    | vU16 n =>
      unfold hasTy at hT
      split at hT
      · simp only [encodeVal] at henc
        cases henc
        simp only [okVal, decide_eq_true_eq] at hV
        rw [decodeVal, parse_integer_ser_small n (by omega) (by omega) rest]
        dsimp only
        rw [if_neg (by omega), Int.toNat_natCast]
      · exact absurd hT (by simp)
    | vU32 n =>
      unfold hasTy at hT
      split at hT
      · simp only [encodeVal] at henc
        split at henc
        · cases henc
        · cases henc
          rename_i hcond
          rw [decodeVal, parse_integer_ser_small n (by omega) (by omega) rest]
          dsimp only
          rw [if_neg (by omega), Int.toNat_natCast]
      · exact absurd hT (by simp)
    | vU64 n =>
      exact absurd hV (by simp [okVal])
    | vF64 bits =>
      unfold hasTy at hT
      split at hT
      · simp only [encodeVal] at henc
        cases henc
        simp only [okVal, decide_eq_true_eq] at hV
        rw [decodeVal, parse_float_ser bits rest]
        dsimp only
        rw [Nat.mod_eq_of_lt hV]
      · exact absurd hT (by simp)
    | vChar p =>
      unfold hasTy at hT
      split at hT
      · simp only [encodeVal] at henc
        cases henc
        simp only [okVal] at hV
        rw [decodeVal, parse_char_ser p hV rest]
      · exact absurd hT (by simp)
    | vStr pts =>
      unfold hasTy at hT
      split at hT
      · simp only [encodeVal] at henc
        cases henc
        simp only [okVal] at hV
        rw [decodeVal, parse_string_ser pts hV rest hrest]
      · exact absurd hT (by simp)
    | vBytes l =>
      unfold hasTy at hT
      split at hT
      · simp only [encodeVal] at henc
        cases henc
        simp only [okVal, Bool.and_eq_true, decide_eq_true_eq] at hV
        rw [decodeVal, parse_binary_ser l hV.2 rest hrest]
      · exact absurd hT (by simp)
    | vUnit =>
      unfold hasTy at hT
      split at hT
      · simp only [encodeVal] at henc
        cases henc
        rw [decodeVal, parse_none_ser rest]
      · exact absurd hT (by simp)
    | vOpt o =>
      cases o with
      | none =>
        unfold hasTy at hT
        split at hT
        · simp only [encodeVal] at henc
          cases henc
          simp only [decodeVal, serialize_none, types.NONE, List.cons_append,
            List.nil_append]
          have hpad : parse_padding ((3 : Nat) :: 0 :: 0 :: 0 :: rest) =
              (3 : Nat) :: 0 :: 0 :: 0 :: rest :=
            parse_padding_goodRest (goodRest_cons (by norm_num) _)
          rw [hpad]
          dsimp only
          rw [if_pos (by rfl)]
          rw [if_neg (by simp only [List.length_cons]; omega)]
          rfl
        · exact absurd hT (by simp)
      | some x =>
        unfold hasTy at hT
        split at hT
        · rename_i t1
          simp only [encodeVal] at henc
          simp only [okVal, Bool.and_eq_true, Bool.not_eq_true'] at hV
          obtain ⟨hne, hh0, hh3⟩ := enc_head_facts x bs henc
          obtain ⟨hd, tl, rfl⟩ : ∃ hd tl, bs = hd :: tl := by
            cases bs with
            | nil => exact absurd rfl hne
            | cons hd tl => exact ⟨hd, tl, rfl⟩
          simp only [List.head?, ne_eq, Option.some.injEq] at hh0
          have hh3x := hh3 hV.2
          simp only [List.head?, ne_eq, Option.some.injEq] at hh3x
          have hx : sizeOf x ≤ N := by
            have : sizeOf (Value.vOpt (some x)) = 1 + (1 + sizeOf x) := by simp
            omega
          simp only [decodeVal, List.cons_append]
          rw [parse_padding_goodRest (goodRest_cons hh0 _)]
          dsimp only
          rw [if_neg (by simpa [types.NONE] using hh3x)]
          have hdec := ihN x hx t1 hT hV.1 (hd :: tl) rest henc hrest
          rw [List.cons_append] at hdec
          rw [hdec]
        · exact absurd hT (by simp)
    | vSeq l =>
      unfold hasTy at hT
      split at hT
      · rename_i t1
        simp only [encodeVal] at henc
        cases hl : encodeList l with
        | error e => rw [hl] at henc; cases henc
        | ok parts =>
          rw [hl] at henc
          cases henc
          simp only [okVal, Bool.and_eq_true, decide_eq_true_eq] at hV
          have IH : ∀ x ∈ l, DecEnc x := by
            intro x hx
            apply ihN x
            have h1 := List.sizeOf_lt_of_mem hx
            have h2 : sizeOf (Value.vSeq l) = 1 + sizeOf l := by simp
            omega
          simp only [decodeVal]
          rw [List.append_assoc]
          rw [parse_block_ser_block l.length hV.1 (parts ++ rest)]
          dsimp only
          rw [Int.toNat_natCast]
          rw [decodeSeqElems_ok t1 l IH hT hV.2 parts rest hl hrest]
      · exact absurd hT (by simp)
    | vTuple l =>
      unfold hasTy at hT
      split at hT
      · rename_i ts
        simp only [encodeVal] at henc
        cases hl : encodeList l with
        | error e => rw [hl] at henc; cases henc
        | ok parts =>
          rw [hl] at henc
          cases henc
          simp only [okVal, Bool.and_eq_true, decide_eq_true_eq] at hV
          have IH : ∀ x ∈ l, DecEnc x := by
            intro x hx
            apply ihN x
            have h1 := List.sizeOf_lt_of_mem hx
            have h2 : sizeOf (Value.vTuple l) = 1 + sizeOf l := by simp
            omega
          simp only [decodeVal]
          rw [List.append_assoc]
          rw [parse_block_ser_block l.length hV.1 (parts ++ rest)]
          dsimp only
          rw [decodeTupleElems_ok ts l (l.length : Int) IH hT hV.2 (le_refl _)
            parts rest hl hrest]
      · exact absurd hT (by simp)
    | vStruct fs =>
      unfold hasTy at hT
      split at hT
      · rename_i fts
        simp only [encodeVal] at henc
        cases hl : encodeFields fs with
        | error e => rw [hl] at henc; cases henc
        | ok parts =>
          rw [hl] at henc
          cases henc
          simp only [okVal, Bool.and_eq_true, decide_eq_true_eq] at hV
          have IH : ∀ x ∈ fs, DecEnc x.2 := by
            intro x hx
            obtain ⟨nm, xv⟩ := x
            show DecEnc xv
            apply ihN xv
            have h1 := List.sizeOf_lt_of_mem hx
            have h2 : sizeOf (Value.vStruct fs) = 1 + sizeOf fs := by simp
            have h3 : sizeOf (nm, xv) = 1 + sizeOf nm + sizeOf xv := by simp
            omega
          simp only [decodeVal]
          rw [List.append_assoc]
          rw [parse_block_ser_block (2 * fs.length) hV.1 (parts ++ rest)]
          dsimp only
          rw [if_neg (by
            rw [show ((2 * fs.length : Nat) : Int) = 2 * ((fs.length : Nat) : Int) by
              push_cast; ring, Int.tmod_two_mul]
            simp)]
          rw [show ((2 * fs.length : Nat) : Int) = 2 * ((fs.length : Nat) : Int) by
            push_cast; ring]
          rw [decodeStructFields_ok fts fs IH hT hV.2 parts rest hl hrest]
      · exact absurd hT (by simp)
    | vMap ps =>
      unfold hasTy at hT
      split at hT
      · rename_i kt vt
        simp only [encodeVal] at henc
        cases hl : encodePairs ps with
        | error e => rw [hl] at henc; cases henc
        | ok parts =>
          rw [hl] at henc
          cases henc
          simp only [okVal, Bool.and_eq_true, decide_eq_true_eq] at hV
          have IHk : ∀ x ∈ ps, DecEnc x.1 := by
            intro x hx
            obtain ⟨xk, xv⟩ := x
            show DecEnc xk
            apply ihN xk
            have h1 := List.sizeOf_lt_of_mem hx
            have h2 : sizeOf (Value.vMap ps) = 1 + sizeOf ps := by simp
            have h3 : sizeOf (xk, xv) = 1 + sizeOf xk + sizeOf xv := by simp
            omega
          have IHv : ∀ x ∈ ps, DecEnc x.2 := by
            intro x hx
            obtain ⟨xk, xv⟩ := x
            show DecEnc xv
            apply ihN xv
            have h1 := List.sizeOf_lt_of_mem hx
            have h2 : sizeOf (Value.vMap ps) = 1 + sizeOf ps := by simp
            have h3 : sizeOf (xk, xv) = 1 + sizeOf xk + sizeOf xv := by simp
            omega
          simp only [decodeVal]
          rw [List.append_assoc]
          rw [parse_block_ser_block (2 * ps.length) hV.1 (parts ++ rest)]
          dsimp only
          rw [if_neg (by
            rw [show ((2 * ps.length : Nat) : Int) = 2 * ((ps.length : Nat) : Int) by
              push_cast; ring, Int.tmod_two_mul]
            simp)]
          rw [show ((2 * ps.length : Nat) : Int) = 2 * ((ps.length : Nat) : Int) by
            push_cast; ring]
          rw [decodeMapPairs_ok kt vt ps IHk IHv hT hV.2 parts rest hl hrest]
      · exact absurd hT (by simp)
    | vEnum name pay =>
      cases pay with
      | none =>
        unfold hasTy at hT
        split at hT
        · rename_i vs
          cases hLk : vs.lookup name with
          | none => rw [hLk] at hT; simp at hT
          | some vt =>
            cases vt with
            | some t1 => rw [hLk] at hT; simp at hT
            | none =>
              simp only [encodeVal] at henc
              cases henc
              simp only [okVal, Bool.and_true] at hV
              simp only [decodeVal]
              rw [List.append_assoc]
              rw [parse_block_ser_paren 1 (by norm_num) (serialize_str name ++ rest)]
              dsimp only
              rw [if_pos (by norm_num)]
              rw [parse_string_ser name hV rest hrest]
              dsimp only
              rw [hLk]
        · exact absurd hT (by simp)
      | some p =>
        unfold hasTy at hT
        split at hT
        · rename_i vs
          cases hLk : vs.lookup name with
          | none => rw [hLk] at hT; simp at hT
          | some vt =>
            cases vt with
            | none => rw [hLk] at hT; simp at hT
            | some t1 =>
              rw [hLk] at hT
              simp only at hT
              simp only [encodeVal] at henc
              cases hp2 : encodeVal p with
              | error e => rw [hp2] at henc; cases henc
              | ok pb =>
                rw [hp2] at henc
                cases henc
                simp only [okVal, Bool.and_eq_true] at hV
                have hx : sizeOf p ≤ N := by
                  have : sizeOf (Value.vEnum name (some p)) =
                      1 + sizeOf name + (1 + sizeOf p) := by simp
                  omega
                have hgp : goodRest (pb ++ rest) := enc_goodRest hp2 hrest
                simp only [decodeVal]
                rw [List.append_assoc, List.append_assoc]
                rw [parse_block_ser_paren 2 (by norm_num)
                  (serialize_str name ++ (pb ++ rest))]
                dsimp only
                rw [if_neg (by norm_num), if_pos (by norm_num)]
                rw [parse_string_ser name hV.1 (pb ++ rest) hgp]
                dsimp only
                split
                · rename_i hx2
                  rw [hLk] at hx2
                  cases hx2
                · rename_i tv hx2
                  rw [hLk] at hx2
                  injection hx2 with hx3
                  injection hx3 with hx4
                  subst hx4
                  rw [ihN p hx t1 hT hV.2 pb rest hp2 hrest]
                · rename_i hx2
                  rw [hLk] at hx2
                  cases hx2
        · exact absurd hT (by simp)

/-- The round-trip property holds for every round-trippable value. -/
theorem decode_encodeVal (v : Value) : DecEnc v :=
  decode_encode_aux (sizeOf v) v (le_refl _)

/-- Top-level round-trip: `from_bytes::<T>(to_bytes(v)?) == Ok(v)` for every
round-trippable value `v` of serde type `T`. -/
theorem from_bytes_to_bytes (v : Value) (t : Ty) (hT : hasTy v t = true)
    (hV : okVal v = true) (bs : Bytes) (henc : to_bytes v = .ok bs) :
    from_bytes t bs = .ok v := by
  unfold to_bytes at henc
  cases hp : encodeVal v with
  | error e => rw [hp] at henc; cases henc
  | ok payload =>
    rw [hp] at henc
    cases henc
    have hpre : (([0x52, 0x45, 0x44, 0x42, 0x49, 0x4E, 0x02, 0x00, 0x01, 0x00, 0x00, 0x00] ++
        le4 payload.length : Bytes)).length = 16 := by
      simp
    unfold from_bytes
    rw [if_neg (by
      simp only [List.length_append, le4_length, List.length_cons, List.length_nil]
      omega)]
    rw [List.drop_left' hpre]
    have hdec := decode_encodeVal v t hT hV payload [] hp goodRest_nil
    rw [List.append_nil] at hdec
    rw [hdec]
    rfl

/-! ## Claim theorems -/

/-- The IEEE-754 double bit pattern of `12.5_f64`: `12.5 = 1.5625 * 2^3`,
so the sign is 0, the biased exponent is `1023 + 3 = 0x402`, and the
52-bit mantissa fraction is `0.5625 * 2^52 = 0x9000000000000`; together
`0x4029000000000000`. -/
def f64_12_5 : Nat := 0x4029000000000000

@[simp] theorem append_any_block_header_length (n : Nat) (p : Bool) :
    (append_any_block_header n p).length = 12 := by
  unfold append_any_block_header
  cases p <;> simp

/-- C2 (counterexample): decoding with a 16-byte prefix that is all zeros —
wrong magic, wrong version, record count 0 — succeeds instead of failing
with an envelope error: the header is skipped, not validated. -/
theorem C2_counterexample :
    from_bytes .tUnit (List.replicate 16 0 ++ [0x03, 0, 0, 0]) = .ok .vUnit := by
  simp [from_bytes, decodeVal, parse_none, parse_padding, types.NONE]

/-- C2 (amended): `from_bytes` treats the first 16 bytes as an opaque
envelope: any 16-byte prefix gives the same result as any other, so magic,
version and record count are never checked. -/
theorem C2_header_skipped (t : Ty) (pre : Bytes) (hpre : pre.length = 16)
    (payload : Bytes) :
    from_bytes t (pre ++ payload) = from_bytes t (List.replicate 16 0 ++ payload) := by
  unfold from_bytes
  rw [List.drop_left' hpre]
  rw [List.drop_left' (by simp : (List.replicate 16 (0 : Nat)).length = 16)]
  rw [if_neg (by simp [hpre]), if_neg (by simp)]

/-- C2 (witness): a well-formed REDBIN header and the all-zero header give
the same decode result. -/
theorem C2_header_skipped_witness :
    from_bytes .tUnit
        ([0x52, 0x45, 0x44, 0x42, 0x49, 0x4E, 0x02, 0x00, 0x01, 0x00, 0x00, 0x00,
          0x04, 0x00, 0x00, 0x00] ++ [0x03, 0, 0, 0]) =
      from_bytes .tUnit (List.replicate 16 0 ++ [0x03, 0, 0, 0]) :=
  C2_header_skipped .tUnit _ (by simp) _

/-- C3: encoding an `f64` emits the float tag word and then the two 4-byte
words of the standard little-endian representation swapped (bytes `[4..8]`
before bytes `[0..4]`); decoding applies the inverse concatenation; and the
encoded value of `12.5_f64` is byte-for-byte
`[0x0C,0,0,0, 0x00,0x00,0x29,0x40, 0x00,0x00,0x00,0x00]`. -/
theorem C3_float_word_swap (bits : Nat) (h : bits < 2 ^ 64) (rest : Bytes) :
    serialize_f64 bits = [0x0C, 0, 0, 0] ++ ((le8 bits).drop 4 ++ (le8 bits).take 4) ∧
    parse_float (serialize_f64 bits ++ rest) = .ok (bits, rest) ∧
    serialize_f64 f64_12_5 =
      [0x0C, 0, 0, 0, 0x00, 0x00, 0x29, 0x40, 0x00, 0x00, 0x00, 0x00] := by
  refine ⟨rfl, ?_, by decide⟩
  rw [parse_float_ser, Nat.mod_eq_of_lt h]

/-- C3 (witness): the word-swap round-trip at `12.5_f64`. -/
theorem C3_float_word_swap_witness :
    f64_12_5 < 2 ^ 64 ∧
      (serialize_f64 f64_12_5 =
          [0x0C, 0, 0, 0] ++ ((le8 f64_12_5).drop 4 ++ (le8 f64_12_5).take 4) ∧
        parse_float (serialize_f64 f64_12_5 ++ []) = .ok (f64_12_5, []) ∧
        serialize_f64 f64_12_5 =
          [0x0C, 0, 0, 0, 0x00, 0x00, 0x29, 0x40, 0x00, 0x00, 0x00, 0x00]) :=
  ⟨by decide, C3_float_word_swap f64_12_5 (by decide) []⟩

/-- C4: decoding is not total — on an empty buffer `parse_header` slices
`&input[16..]` out of bounds and the process aborts, and on a payload
truncated mid-value `parse_integer` slices `&input[..4]` out of bounds and
aborts; no `TrailingBytes`/structural error is returned. -/
theorem C4_truncation_aborts :
    from_bytes .tI32 [] = .abort ∧
    from_bytes .tI32 (List.replicate 16 0 ++ [0x0B, 0, 0]) = .abort := by
  constructor
  · simp [from_bytes]
  · simp [from_bytes, decodeVal, parse_integer, parse_padding]

/-- C5: decoding a block as a map fails with the even-length error whenever
the element count is odd, for every sequence of bytes following the block
header — so the error is raised before any key or value is consumed. -/
theorem C5_map_parity (n : Nat) (h31 : n < 2 ^ 31) (hodd : n % 2 = 1)
    (kt vt : Ty) (tail : Bytes) :
    decodeVal (.tMap kt vt) (append_any_block_header n false ++ tail) =
      .err .ExpectedEvenLength := by
  simp only [decodeVal]
  rw [parse_block_ser_block n h31 tail]
  dsimp only
  rw [if_pos (by
    rw [Int.tmod_eq_emod (by positivity) (by norm_num)]
    omega)]

/-- C5 (witness): a 3-element block refused as a map, its content never
examined. -/
theorem C5_map_parity_witness :
    decodeVal (.tMap .tI32 .tI32) (append_any_block_header 3 false ++ [0xFF]) =
      .err .ExpectedEvenLength :=
  C5_map_parity 3 (by norm_num) (by norm_num) .tI32 .tI32 [0xFF]

/-- C1 (counterexample): the round trip fails on two supported values whose
encoding succeeds.  `5u64` encodes through the 32-bit integer path but the
`u64` decoder demands a binary blob, so decoding its own output errors; and
`Some(())` encodes as the bare `none!` record, which decoding reads back as
`None`. -/
theorem C1_counterexample :
    (to_bytes (.vU64 5) =
        .ok [82, 69, 68, 66, 73, 78, 2, 0, 1, 0, 0, 0, 8, 0, 0, 0,
          0x0B, 0, 0, 0, 5, 0, 0, 0] ∧
      from_bytes .tU64
          [82, 69, 68, 66, 73, 78, 2, 0, 1, 0, 0, 0, 8, 0, 0, 0,
            0x0B, 0, 0, 0, 5, 0, 0, 0] =
        .err .ExpectedBinary) ∧
    (to_bytes (.vOpt (some .vUnit)) =
        .ok [82, 69, 68, 66, 73, 78, 2, 0, 1, 0, 0, 0, 4, 0, 0, 0,
          0x03, 0, 0, 0] ∧
      from_bytes (.tOpt .tUnit)
          [82, 69, 68, 66, 73, 78, 2, 0, 1, 0, 0, 0, 4, 0, 0, 0,
            0x03, 0, 0, 0] =
        .ok (.vOpt none) ∧
      Value.vOpt none ≠ Value.vOpt (some .vUnit)) := by
  refine ⟨⟨?_, ?_⟩, ?_, ?_, by simp⟩
  · simp [to_bytes, encodeVal, serialize_i32, le4, le8, toI32, types.INTEGER]
  · simp [from_bytes, decodeVal, parse_binary, parse_series, seriesHead, seriesLen,
      seriesBytes, parse_padding, types.BYTES, leNat]
  · simp [to_bytes, encodeVal, serialize_none, le4, le8, types.NONE]
  · simp [from_bytes, decodeVal, parse_none, parse_padding, types.NONE]

/-- C1 (amended): the round trip `from_bytes (to_bytes v) = Ok v` holds for
every well-typed supported value once `u64` values and options whose payload
itself begins with the `none!` record are excluded (`okVal`): those are
exactly the values the encode/decode pair cannot distinguish or reach. -/
theorem C1_roundtrip (v : Value) (t : Ty) (hT : hasTy v t = true)
    (hV : okVal v = true) (bs : Bytes) (henc : to_bytes v = .ok bs) :
    from_bytes t bs = .ok v :=
  from_bytes_to_bytes v t hT hV bs henc

/-- C1 (witness): the amended round trip at a concrete nested tuple holding
a bool, an integer and an option. -/
theorem C1_roundtrip_witness :
    hasTy (.vTuple [.vBool true, .vI32 5, .vOpt (some (.vI32 7))])
        (.tTuple [.tBool, .tI32, .tOpt .tI32]) = true ∧
    okVal (.vTuple [.vBool true, .vI32 5, .vOpt (some (.vI32 7))]) = true ∧
    to_bytes (.vTuple [.vBool true, .vI32 5, .vOpt (some (.vI32 7))]) =
      .ok [82, 69, 68, 66, 73, 78, 2, 0, 1, 0, 0, 0, 36, 0, 0, 0,
        5, 0, 0, 0, 0, 0, 0, 0, 3, 0, 0, 0, 4, 0, 0, 0, 1, 0, 0, 0,
        11, 0, 0, 0, 5, 0, 0, 0, 11, 0, 0, 0, 7, 0, 0, 0] ∧
    from_bytes (.tTuple [.tBool, .tI32, .tOpt .tI32])
        [82, 69, 68, 66, 73, 78, 2, 0, 1, 0, 0, 0, 36, 0, 0, 0,
          5, 0, 0, 0, 0, 0, 0, 0, 3, 0, 0, 0, 4, 0, 0, 0, 1, 0, 0, 0,
          11, 0, 0, 0, 5, 0, 0, 0, 11, 0, 0, 0, 7, 0, 0, 0] =
      .ok (.vTuple [.vBool true, .vI32 5, .vOpt (some (.vI32 7))]) := by
  have hT : hasTy (.vTuple [.vBool true, .vI32 5, .vOpt (some (.vI32 7))])
      (.tTuple [.tBool, .tI32, .tOpt .tI32]) = true := by
    simp [hasTy, hasTyTuple]
  have hV : okVal (.vTuple [.vBool true, .vI32 5, .vOpt (some (.vI32 7))]) = true := by
    simp [okVal, okList, noneHeaded]
  have henc : to_bytes (.vTuple [.vBool true, .vI32 5, .vOpt (some (.vI32 7))]) =
      .ok [82, 69, 68, 66, 73, 78, 2, 0, 1, 0, 0, 0, 36, 0, 0, 0,
        5, 0, 0, 0, 0, 0, 0, 0, 3, 0, 0, 0, 4, 0, 0, 0, 1, 0, 0, 0,
        11, 0, 0, 0, 5, 0, 0, 0, 11, 0, 0, 0, 7, 0, 0, 0] := by
    simp [to_bytes, encodeVal, encodeList, serialize_bool, serialize_i32,
      append_any_block_header, le4, le8, toI32, types.BLOCK, types.INTEGER, types.LOGIC]
  exact ⟨hT, hV, henc, C1_roundtrip _ _ hT hV _ henc⟩

/-- C6: decoding an enum reads a paren container; element count 1 yields the
unit variant named by the sole string element, element count 2 yields the
variant named by the first (string) element carrying the decoded second
element as payload, and any other element count fails with `ExpectedEnum`
(the malformed-enum-arity error). -/
theorem C6_enum_arity (vs : List (Str × Option Ty)) (name : Str)
    (hname : strOk name = true) (tail : Bytes) (htail : goodRest tail) :
    (∀ c : Nat, c < 2 ^ 31 → c ≠ 1 → c ≠ 2 →
      decodeVal (.tEnum vs) (append_any_block_header c true ++ tail) =
        .err .ExpectedEnum) ∧
    (vs.lookup name = some none →
      decodeVal (.tEnum vs)
          (append_any_block_header 1 true ++ (serialize_str name ++ tail)) =
        .ok (.vEnum name none, tail)) ∧
    (∀ (t : Ty) (v : Value), vs.lookup name = some (some t) →
      hasTy v t = true → okVal v = true →
      ∀ pbs : Bytes, encodeVal v = .ok pbs →
      decodeVal (.tEnum vs)
          (append_any_block_header 2 true ++ (serialize_str name ++ (pbs ++ tail))) =
        .ok (.vEnum name (some v), tail)) := by
  refine ⟨?_, ?_, ?_⟩
  · intro c hc h1 h2
    simp only [decodeVal]
    rw [parse_block_ser_paren c hc tail]
    dsimp only
    rw [if_neg (by omega), if_neg (by omega)]
  · intro hLk
    simp only [decodeVal]
    rw [parse_block_ser_paren 1 (by norm_num) (serialize_str name ++ tail)]
    dsimp only
    rw [if_pos (by norm_num)]
    rw [parse_string_ser name hname tail htail]
    dsimp only
    rw [hLk]
  · intro t v hLk hT hV pbs henc
    have hgp : goodRest (pbs ++ tail) := enc_goodRest henc htail
    simp only [decodeVal]
    rw [parse_block_ser_paren 2 (by norm_num) (serialize_str name ++ (pbs ++ tail))]
    dsimp only
    rw [if_neg (by norm_num), if_pos (by norm_num)]
    rw [parse_string_ser name hname (pbs ++ tail) hgp]
    dsimp only
    split
    · rename_i hx2
      rw [hLk] at hx2
      cases hx2
    · rename_i tv hx2
      rw [hLk] at hx2
      injection hx2 with hx3
      injection hx3 with hx4
      subst hx4
      rw [decode_encodeVal v t hT hV pbs tail henc htail]
    · rename_i hx2
      rw [hLk] at hx2
      cases hx2

/-- C6 (witness): over the enum `{a, b(i32)}`, a 3-element paren is refused
with `ExpectedEnum`, a 1-element paren gives the unit variant `a`, and a
2-element paren gives `b` with its decoded `i32` payload. -/
theorem C6_enum_arity_witness :
    decodeVal (.tEnum [([97], none), ([98], some .tI32)])
        (append_any_block_header 3 true ++ []) = .err .ExpectedEnum ∧
    decodeVal (.tEnum [([97], none), ([98], some .tI32)])
        (append_any_block_header 1 true ++ (serialize_str [97] ++ [])) =
      .ok (.vEnum [97] none, []) ∧
    decodeVal (.tEnum [([97], none), ([98], some .tI32)])
        (append_any_block_header 2 true ++
          (serialize_str [98] ++ (serialize_i32 5 ++ []))) =
      .ok (.vEnum [98] (some (.vI32 5)), []) := by
  obtain ⟨h1, h2, -⟩ :=
    C6_enum_arity [([97], none), ([98], some .tI32)] [97] (by decide) [] goodRest_nil
  obtain ⟨-, -, h3⟩ :=
    C6_enum_arity [([97], none), ([98], some .tI32)] [98] (by decide) [] goodRest_nil
  refine ⟨h1 3 (by norm_num) (by norm_num) (by norm_num), h2 rfl, ?_⟩
  exact h3 .tI32 (.vI32 5) rfl (by simp [hasTy]) (by simp [okVal])
    (serialize_i32 5) (by simp [encodeVal])

/-- C7: the 64-bit unsigned paths are asymmetric — decoding a `u64` reads
exactly 8 raw little-endian bytes through the binary codec, while encoding
a `u64` goes through the 32-bit integer path: every value above `i32::MAX`
is rejected with an error, and every other value is emitted as a 32-bit
integer record. -/
theorem C7_u64_asymmetry (bs8 : Bytes) (h8 : bs8.length = 8)
    (rest : Bytes) (hrest : goodRest rest) :
    decodeVal .tU64 (serialize_bytes bs8 ++ rest) = .ok (.vU64 (leNat bs8), rest) ∧
    (∀ n : Nat, 2 ^ 31 - 1 < n → encodeVal (.vU64 n) = .error .Message) ∧
    (∀ n : Nat, n ≤ 2 ^ 31 - 1 → encodeVal (.vU64 n) = .ok (serialize_i32 n)) := by
  refine ⟨?_, ?_, ?_⟩
  · simp only [decodeVal]
    rw [parse_binary_ser bs8 (by omega) rest hrest]
    dsimp only
    rw [if_pos h8]
  · intro n hn
    simp only [encodeVal]
    rw [if_pos hn]
  · intro n hn
    simp only [encodeVal]
    rw [if_neg (by omega)]

/-- C7 (witness): an 8-byte binary blob decodes as a `u64`, `2^31` is
rejected on encode, and `5u64` encodes as a 32-bit integer record. -/
theorem C7_u64_asymmetry_witness :
    decodeVal .tU64 (serialize_bytes [1, 2, 3, 4, 5, 6, 7, 8] ++ []) =
      .ok (.vU64 (leNat [1, 2, 3, 4, 5, 6, 7, 8]), []) ∧
    encodeVal (.vU64 (2 ^ 31)) = .error .Message ∧
    encodeVal (.vU64 5) = .ok (serialize_i32 5) := by
  obtain ⟨h1, h2, h3⟩ :=
    C7_u64_asymmetry [1, 2, 3, 4, 5, 6, 7, 8] (by decide) [] goodRest_nil
  exact ⟨h1, h2 (2 ^ 31) (by norm_num), h3 5 (by norm_num)⟩

/-- C8: the string encoder picks unit width 1 exactly when the UTF-8 byte
length equals the code-point count (ASCII), emitting the raw bytes padded
with zeros to a 4-byte boundary; every other string is emitted with unit
width 4 as UCS-4LE; the unit-width byte is always 1 or 4, never 2; and
`"aa"` and `"ą"` encode to the stated byte strings. -/
theorem C8_str_encoding (pts : List Nat) (h32 : (utf8Bytes pts).length < 2 ^ 32) :
    ((utf8Bytes pts).length = pts.length →
      serialize_str pts =
        [types.STRING, 1, 0, 0] ++ [0, 0, 0, 0] ++ le4 pts.length ++ pts ++
          List.replicate ((4 - pts.length % 4) % 4) 0) ∧
    ((utf8Bytes pts).length ≠ pts.length →
      serialize_str pts =
        [types.STRING, 4, 0, 0] ++ [0, 0, 0, 0] ++ le4 pts.length ++ ucs4Encode pts) ∧
    ((serialize_str pts).get? 1 = some 1 ∨ (serialize_str pts).get? 1 = some 4) ∧
    serialize_str [0x61, 0x61] =
      [0x07, 1, 0, 0, 0, 0, 0, 0, 2, 0, 0, 0, 0x61, 0x61, 0, 0] ∧
    serialize_str [0x105] =
      [0x07, 4, 0, 0, 0, 0, 0, 0, 1, 0, 0, 0, 0x05, 0x01, 0, 0] := by
  have hle : pts.length ≤ (utf8Bytes pts).length := length_le_utf8Bytes pts
  refine ⟨?_, ?_, ?_, by decide, by decide⟩
  · intro h
    unfold serialize_str
    rw [if_pos (by omega)]
    rw [utf8Bytes_ascii (utf8Bytes_length_eq h)]
  · intro h
    unfold serialize_str
    rw [if_neg (by omega)]
  · unfold serialize_str
    split
    · left; rfl
    · right; rfl

/-- C8 (witness): the concrete encodings of `"aa"` (ASCII, unit width 1,
padded) and `"ą"` (non-ASCII, unit width 4, UCS-4LE). -/
theorem C8_str_encoding_witness :
    serialize_str [0x61, 0x61] =
      [0x07, 1, 0, 0, 0, 0, 0, 0, 2, 0, 0, 0, 0x61, 0x61, 0, 0] ∧
    serialize_str [0x105] =
      [0x07, 4, 0, 0, 0, 0, 0, 0, 1, 0, 0, 0, 0x05, 0x01, 0, 0] := by
  obtain ⟨-, -, -, h4, h5⟩ := C8_str_encoding [0x61, 0x61] (by decide)
  exact ⟨h4, h5⟩

/-- C9: every block the encoder produces for a struct or a map starts with
a block header whose element count is `2 × field_count` resp. `2` per map
entry — always even — and consequently any codec-produced struct or map
block decodes back successfully, passing the decoder's even-length check. -/
theorem C9_even_counts (fs : List (Str × Value)) (ps : List (Value × Value))
    (bs1 bs2 : Bytes)
    (h1 : encodeVal (.vStruct fs) = .ok bs1) (h2 : encodeVal (.vMap ps) = .ok bs2) :
    bs1.take 12 = append_any_block_header (2 * fs.length) false ∧
    bs2.take 12 = append_any_block_header (2 * ps.length) false ∧
    (∀ fts, hasTy (.vStruct fs) (.tStruct fts) = true → okVal (.vStruct fs) = true →
      ∀ rest, goodRest rest →
        decodeVal (.tStruct fts) (bs1 ++ rest) = .ok (.vStruct fs, rest)) ∧
    (∀ kt vt, hasTy (.vMap ps) (.tMap kt vt) = true → okVal (.vMap ps) = true →
      ∀ rest, goodRest rest →
        decodeVal (.tMap kt vt) (bs2 ++ rest) = .ok (.vMap ps, rest)) := by
  refine ⟨?_, ?_, ?_, ?_⟩
  · simp only [encodeVal] at h1
    cases hf : encodeFields fs with
    | error e => rw [hf] at h1; cases h1
    | ok parts =>
      rw [hf] at h1
      cases h1
      rw [List.take_left' (append_any_block_header_length _ _)]
  · simp only [encodeVal] at h2
    cases hp : encodePairs ps with
    | error e => rw [hp] at h2; cases h2
    | ok parts =>
      rw [hp] at h2
      cases h2
      rw [List.take_left' (append_any_block_header_length _ _)]
  · intro fts hT hV rest hrest
    exact decode_encodeVal (.vStruct fs) (.tStruct fts) hT hV bs1 rest h1 hrest
  · intro kt vt hT hV rest hrest
    exact decode_encodeVal (.vMap ps) (.tMap kt vt) hT hV bs2 rest h2 hrest

/-- C9 (witness): a one-field struct and a one-entry map both carry element
count 2 in their block headers, and the map decodes back. -/
theorem C9_even_counts_witness :
    encodeVal (.vStruct [([97], .vI32 5)]) =
      .ok [5, 0, 0, 0, 0, 0, 0, 0, 2, 0, 0, 0, 7, 1, 0, 0, 0, 0, 0, 0,
        1, 0, 0, 0, 97, 0, 0, 0, 11, 0, 0, 0, 5, 0, 0, 0] ∧
    encodeVal (.vMap [(.vI32 1, .vI32 2)]) =
      .ok [5, 0, 0, 0, 0, 0, 0, 0, 2, 0, 0, 0, 11, 0, 0, 0, 1, 0, 0, 0,
        11, 0, 0, 0, 2, 0, 0, 0] ∧
    ([5, 0, 0, 0, 0, 0, 0, 0, 2, 0, 0, 0, 7, 1, 0, 0, 0, 0, 0, 0,
        1, 0, 0, 0, 97, 0, 0, 0, 11, 0, 0, 0, 5, 0, 0, 0] : Bytes).take 12 =
      append_any_block_header (2 * 1) false ∧
    ([5, 0, 0, 0, 0, 0, 0, 0, 2, 0, 0, 0, 11, 0, 0, 0, 1, 0, 0, 0,
        11, 0, 0, 0, 2, 0, 0, 0] : Bytes).take 12 =
      append_any_block_header (2 * 1) false ∧
    decodeVal (.tMap .tI32 .tI32)
        ([5, 0, 0, 0, 0, 0, 0, 0, 2, 0, 0, 0, 11, 0, 0, 0, 1, 0, 0, 0,
          11, 0, 0, 0, 2, 0, 0, 0] ++ []) =
      .ok (.vMap [(.vI32 1, .vI32 2)], []) := by
  have h1 : encodeVal (.vStruct [([97], .vI32 5)]) =
      .ok [5, 0, 0, 0, 0, 0, 0, 0, 2, 0, 0, 0, 7, 1, 0, 0, 0, 0, 0, 0,
        1, 0, 0, 0, 97, 0, 0, 0, 11, 0, 0, 0, 5, 0, 0, 0] := by
    simp [encodeVal, encodeFields, serialize_str, serialize_i32, utf8Bytes, utf8Char,
      append_any_block_header, le4, toI32, types.BLOCK, types.STRING, types.INTEGER]
  have h2 : encodeVal (.vMap [(.vI32 1, .vI32 2)]) =
      .ok [5, 0, 0, 0, 0, 0, 0, 0, 2, 0, 0, 0, 11, 0, 0, 0, 1, 0, 0, 0,
        11, 0, 0, 0, 2, 0, 0, 0] := by
    simp [encodeVal, encodePairs, serialize_i32, append_any_block_header, le4, toI32,
      types.BLOCK, types.INTEGER]
  obtain ⟨ht1, ht2, -, hdec⟩ :=
    C9_even_counts [([97], .vI32 5)] [(.vI32 1, .vI32 2)] _ _ h1 h2
  refine ⟨h1, h2, by simpa using ht1, by simpa using ht2, ?_⟩
  exact hdec .tI32 .tI32 (by simp [hasTy, hasTyPairs]) (by simp [okVal, okPairs])
    [] goodRest_nil

/-- C10: the string decoder accepts any unit-width byte without validation
when the reference flag is clear — it consumes `length × unit_width`
content bytes, and every unit width other than 1 or 2 (such as 3) is sent
through the UCS-4LE path instead of being rejected. -/
theorem C10_unit_width_unchecked (u len : Nat) (hu : u < 256)
    (hu1 : u ≠ 1) (hu2 : u ≠ 2) (hlen : len < 2 ^ 31)
    (content : Bytes) (hcontent : content.length = len * u)
    (rest : Bytes) (hrest : goodRest rest) :
    parse_string ([types.STRING, u, 0, 0] ++ [0, 0, 0, 0] ++ le4 len ++ content ++ rest) =
      match ucs4Decode content with
      | some pts => .ok (pts, rest)
      | none => .err .Message := by
  unfold parse_string
  rw [show ([types.STRING, u, 0, 0] ++ [0, 0, 0, 0] ++ le4 len ++ content ++ rest : Bytes) =
      [types.STRING, u, 0, 0] ++ [0, 0, 0, 0] ++ le4 len ++ content ++
        List.replicate 0 0 ++ rest by simp]
  rw [parse_series_ser types.STRING u len 0 content rest .ExpectedString
    (by simp [types.STRING]) hu hlen hcontent hrest]
  dsimp only
  rw [if_neg hu1, if_neg hu2]

/-- C10 (witness): a string record with the unsupported unit width 3 and 12
content bytes is decoded through the UCS-4LE path as three code points. -/
theorem C10_unit_width_unchecked_witness :
    parse_string ([types.STRING, 3, 0, 0] ++ [0, 0, 0, 0] ++ le4 4 ++
        [97, 0, 0, 0, 98, 0, 0, 0, 99, 0, 0, 0] ++ []) =
      .ok ([97, 98, 99], []) := by
  have h := C10_unit_width_unchecked 3 4 (by norm_num) (by norm_num) (by norm_num)
    (by norm_num) [97, 0, 0, 0, 98, 0, 0, 0, 99, 0, 0, 0] (by decide) [] goodRest_nil
  simpa [ucs4Decode, isScalar, leNat] using h

end Redbin
